import Mathlib

/-!
Shallow embedding of the jigsaw-challenge programs `makejigsaw.c` and
`validatejigsaw.c` (ClusterFights/jigsaw-challenge).

Grids are modelled as total functions `ℕ → ℤ` over the linear cell index
`col + row * gw`.  The C `rand()` stream is modelled as an arbitrary function
`r : ℕ → ℕ` consumed sequentially through a counter, so a universally
quantified `r` covers every possible outcome of the random draws.
-/

namespace Jigsaw

/-- Pointwise update of a grid, modelling the C assignment `grid[x] = v`. -/
def upd (g : ℕ → ℤ) (x : ℕ) (v : ℤ) : ℕ → ℤ :=
  fun y => if y = x then v else g y

/-- The freshly allocated grid: `main` fills every cell with the sentinel `-1`. -/
def allSentinel : ℕ → ℤ := fun _ => -1

/-- Grid width `gw = (width * (edge - 1)) + 1` (makejigsaw.c `main`, line 552). -/
def gwOf (width edge : ℕ) : ℕ := width * (edge - 1) + 1

/-- Grid height `gh = (height * (edge - 1)) + 1` (makejigsaw.c `main`, line 553). -/
def ghOf (height edge : ℕ) : ℕ := height * (edge - 1) + 1

/-- Index list of a C loop `for (v = start; v < stop; v += stp)`, by fuel;
fuel `stop` is enough iterations whenever `stp ≥ 1`. -/
def forIdxAux (stp : ℕ) : ℕ → ℕ → ℕ → List ℕ
  | 0, _, _ => []
  | fuel + 1, start, stop =>
    if start < stop then start :: forIdxAux stp fuel (start + stp) stop else []

/-- Index list of a C loop `for (v = start; v < stop; v += stp)`. -/
def forIdx (start stop stp : ℕ) : List ℕ := forIdxAux stp stop start stop

/-- Loop-nest iteration tuples `(j, i, jk, ik)` of `initgrid` in execution
order (makejigsaw.c lines 594-599). -/
def initTuples (width height edge : ℕ) : List (ℕ × ℕ × ℕ × ℕ) :=
  ((forIdx 0 height 1).map (fun j =>
    ((forIdx 0 width 1).map (fun i =>
      ((forIdx 0 edge 1).map (fun jk =>
        (forIdx 0 edge 1).map (fun ik => (j, i, jk, ik)))).flatten)).flatten)).flatten

/-- One `initgrid` loop body (makejigsaw.c lines 600-611): skip the shared
interlock cells, otherwise write the piece number `i + j*width` at
`(ik + is) + ((js + jk) * gw)` with `is = i*(edge-1)`, `js = j*(edge-1)`. -/
def initStep (width height edge gw : ℕ) (g : ℕ → ℤ) (t : ℕ × ℕ × ℕ × ℕ) : ℕ → ℤ :=
  let j := t.1
  let i := t.2.1
  let jk := t.2.2.1
  let ik := t.2.2.2
  if ik = 0 ∧ i ≠ 0 then g
  else if jk = 0 ∧ j ≠ 0 then g
  else if ik = edge - 1 ∧ i ≠ width - 1 then g
  else if jk = edge - 1 ∧ j ≠ height - 1 then g
  else upd g ((ik + i * (edge - 1)) + ((j * (edge - 1) + jk) * gw)) ((i + j * width : ℕ) : ℤ)

/-- `initgrid` (makejigsaw.c lines 584-616). -/
def initgrid (width height edge : ℕ) (g : ℕ → ℤ) : ℕ → ℤ :=
  (initTuples width height edge).foldl (initStep width height edge (gwOf width edge)) g

/-- One random-copy step of `dogrid`: cell `x` receives the current value of
the source cell chosen by the `rand()` value, and the counter advances. -/
def copyStep (r : ℕ → ℕ) (src : ℕ → ℕ → ℕ) (s : (ℕ → ℤ) × ℕ) (x : ℕ) : (ℕ → ℤ) × ℕ :=
  (upd s.1 x (s.1 (src (r s.2) x)), s.2 + 1)

/-- A `dogrid` phase: fold the random-copy step over the phase's cells. -/
def phaseRun (r : ℕ → ℕ) (src : ℕ → ℕ → ℕ) (cells : List ℕ) (s : (ℕ → ℤ) × ℕ) :
    (ℕ → ℤ) × ℕ :=
  cells.foldl (copyStep r src) s

/-- Source choice of `dogrid` phase 1 (lines 641-644): left or right neighbor. -/
def src1 (v x : ℕ) : ℕ := if v % 2 = 0 then x - 1 else x + 1

/-- Source choice of `dogrid` phase 2 (lines 652-655): the neighbor above or
below (`x - gw` / `x + gw`). -/
def src2 (gw : ℕ) (v x : ℕ) : ℕ := if v % 2 = 0 then x - gw else x + gw

/-- Source choice of `dogrid` phase 3 (lines 664-676): four-way selection. -/
def src3 (gw : ℕ) (v x : ℕ) : ℕ :=
  if v % 4 = 0 then x - 1
  else if v % 4 = 1 then x + 1
  else if v % 4 = 2 then x + gw
  else x - gw

/-- Cells of `dogrid` phase 1 in execution order (lines 638-640): seam columns
`ik = step, 2*step, …  < gw-1`, each over all rows `jk < gh`. -/
def phase1Cells (width height edge : ℕ) : List ℕ :=
  ((forIdx (edge - 1) (gwOf width edge - 1) (edge - 1)).map (fun ik =>
    (forIdx 0 (ghOf height edge) 1).map (fun jk => ik + jk * gwOf width edge))).flatten

/-- Cells of `dogrid` phase 2 in execution order (lines 649-651): seam rows
`jk = step, 2*step, … < gh-1`, each over all columns `ik < gw`. -/
def phase2Cells (width height edge : ℕ) : List ℕ :=
  ((forIdx (edge - 1) (ghOf height edge - 1) (edge - 1)).map (fun jk =>
    (forIdx 0 (gwOf width edge) 1).map (fun ik => ik + jk * gwOf width edge))).flatten

/-- Cells of `dogrid` phase 3 in execution order (lines 660-662): the
intersections of seam rows and seam columns. -/
def phase3Cells (width height edge : ℕ) : List ℕ :=
  ((forIdx (edge - 1) (ghOf height edge - 1) (edge - 1)).map (fun jk =>
    (forIdx (edge - 1) (gwOf width edge - 1) (edge - 1)).map (fun ik =>
      ik + jk * gwOf width edge))).flatten

/-- `dogrid` (makejigsaw.c lines 623-679): the three random resolution phases
run in order, threading the `rand()` counter. -/
def dogrid (width height edge : ℕ) (r : ℕ → ℕ) (g : ℕ → ℤ) : ℕ → ℤ :=
  (phaseRun r (src3 (gwOf width edge)) (phase3Cells width height edge)
    (phaseRun r (src2 (gwOf width edge)) (phase2Cells width height edge)
      (phaseRun r src1 (phase1Cells width height edge) (g, 0)))).1

/-- The completed generator grid: fresh sentinel grid, `initgrid`, `dogrid`
(makejigsaw.c `main`, lines 554-566). -/
def genGrid (width height edge : ℕ) (r : ℕ → ℕ) : ℕ → ℤ :=
  dogrid width height edge r (initgrid width height edge allSentinel)

/-- Base grid offset `(is, js)` of the `n`'th output piece (makejigsaw.c
lines 752-755): `i = n % width`, `j = n / height`. -/
def makeBase (width height edge n : ℕ) : ℕ × ℕ :=
  ((n % width) * (edge - 1), (n / height) * (edge - 1))

/-- Bit address computed by `outputpbm` (lines 761-768) for rotation code
`randrot ∈ {0,1,2,3}` (the trailing `else` is the 270-degree case). -/
def makeXmap (edge gw is js randrot jk ik : ℕ) : ℕ :=
  if randrot = 0 then ik + is + ((jk + js) * gw)
  else if randrot = 1 then jk + is + (((edge - 1 - ik) + js) * gw)
  else if randrot = 2 then edge - 1 - ik + is + (((edge - 1 - jk) + js) * gw)
  else edge - 1 - jk + is + ((ik + js) * gw)

/-- The bitmap written for piece `n` at rotation code `randrot`: row `jk`,
column `ik` is `1` iff the grid holds `n` at the mapped cell (lines 758-772). -/
def makePieceBitmap (g : ℕ → ℤ) (width height edge n randrot : ℕ) : ℕ → ℕ → Bool :=
  fun jk ik =>
    decide (g (makeXmap edge (gwOf width edge) (makeBase width height edge n).1
      (makeBase width height edge n).2 randrot jk ik) = (n : ℤ))

/-- One swap of the piece shuffle (outputpbm lines 717-722), on the piece
array modelled as a function: `newloc = rand() % npiece`, then swap
`piece[n]` and `piece[newloc]`. -/
def swapStep (npiece : ℕ) (r : ℕ → ℕ) (s : (ℕ → ℕ) × ℕ) (n : ℕ) : (ℕ → ℕ) × ℕ :=
  let newloc := r s.2 % npiece
  let j := s.1 newloc
  (fun k => if k = n then j else if k = newloc then s.1 n else s.1 k, s.2 + 1)

/-- The shuffled file-identifier array (outputpbm lines 712-722): start from
`piece[n] = n`, then perform one random swap per index. -/
def shufflePieces (npiece : ℕ) (r : ℕ → ℕ) : ℕ → ℕ :=
  ((forIdx 0 npiece 1).foldl (swapStep npiece r) (fun n => n, 0)).1

/-- Base grid offset `(is, js)` used by the validator for the running ledger
entry counter `piece` (validatejigsaw.c lines 276-279): `i = piece % width`,
`j = piece / height`. -/
def valBase (width height edge piece : ℕ) : ℕ × ℕ :=
  ((piece % width) * (edge - 1), (piece / height) * (edge - 1))

/-- Bit address computed by `getgrid` (validatejigsaw.c lines 285-292) for an
angle in degrees (the trailing `else` is the 270-degree case). -/
def valXmap (edge gw is js angle jk ik : ℕ) : ℕ :=
  if angle = 0 then ik + is + ((jk + js) * gw)
  else if angle = 90 then jk + is + (((edge - 1 - ik) + js) * gw)
  else if angle = 180 then edge - 1 - ik + is + (((edge - 1 - jk) + js) * gw)
  else edge - 1 - jk + is + ((ik + js) * gw)

/-- Scan order of bitmap coordinates `(jk, ik)` (validatejigsaw.c lines
282-283, same order as the serializer writes them). -/
def bitCoords (edge : ℕ) : List (ℕ × ℕ) :=
  ((forIdx 0 edge 1).map (fun jk =>
    (forIdx 0 edge 1).map (fun ik => (jk, ik)))).flatten

/-- Claim the grid cells of one piece bitmap (validatejigsaw.c lines 284-315):
a `1` bit claims its mapped cell; a cell already claimed (`≠ -1`) is a
collision reported with both piece numbers; a `0` bit is skipped. -/
def placeBits (xm : ℕ → ℕ → ℕ) (bm : ℕ → ℕ → Bool) (piece : ℕ) :
    (ℕ → ℤ) → List (ℕ × ℕ) → Except (ℤ × ℕ) (ℕ → ℤ)
  | g, [] => .ok g
  | g, (jk, ik) :: cs =>
    if bm jk ik then
      if g (xm jk ik) ≠ -1 then .error (g (xm jk ik), piece)
      else placeBits xm bm piece (upd g (xm jk ik) (piece : ℤ)) cs
    else placeBits xm bm piece g cs

/-- The validator's full bit-to-cell transform for ledger entry `piece` at a
given angle: `valXmap` at the base offset `valBase` computes. -/
def valPieceXmap (width height edge piece angle : ℕ) : ℕ → ℕ → ℕ :=
  valXmap edge (gwOf width edge) (valBase width height edge piece).1
    (valBase width height edge piece).2 angle

/-- Deserialize a single ledger entry: place the bitmap with the validator's
transform at the validator's base offset for entry counter `piece`. -/
def placePiece (width height edge : ℕ) (g : ℕ → ℤ) (piece angle : ℕ)
    (bm : ℕ → ℕ → Bool) : Except (ℤ × ℕ) (ℕ → ℤ) :=
  placeBits (valPieceXmap width height edge piece angle) bm piece g (bitCoords edge)

/-- Replay a whole solution ledger (`getgrid`'s outer loop, lines 247-328):
entries are consumed in order with the running `piece` counter; a collision
aborts immediately. -/
def getgrid (width height edge : ℕ) :
    (ℕ → ℤ) → ℕ → List ((ℕ → ℕ → Bool) × ℕ) → Except (ℤ × ℕ) (ℕ → ℤ)
  | g, _, [] => .ok g
  | g, piece, (bm, angle) :: rest =>
    match placePiece width height edge g piece angle bm with
    | .error c => .error c
    | .ok g2 => getgrid width height edge g2 (piece + 1) rest

/-- Scan order of `testgrid` (validatejigsaw.c lines 348-350). -/
def testCoords (width height edge : ℕ) : List (ℕ × ℕ) :=
  ((forIdx 0 (ghOf height edge) 1).map (fun j =>
    (forIdx 0 (gwOf width edge) 1).map (fun i => (j, i)))).flatten

/-- `testgrid` (validatejigsaw.c lines 337-361): report the first unclaimed
cell as `some (j, i)` (prints `invalid`, exits 1), else `none` (prints
`valid`, exits 0). -/
def testgrid (width height edge : ℕ) (g : ℕ → ℤ) : Option (ℕ × ℕ) :=
  (testCoords width height edge).find? (fun t => decide (g (t.1 * gwOf width edge + t.2) = -1))

/-- Rotation table exactly as the specification states it (spec section 4.3,
claim C3): global (column, row) for local `(ik, jk)` at base `(is, js)`,
rendered as the linear index column + row * gw. -/
def specRotTable (edge gw is js angle jk ik : ℕ) : ℕ :=
  if angle = 0 then (ik + is) + (jk + js) * gw
  else if angle = 90 then (jk + is) + ((edge - 1 - ik) + js) * gw
  else if angle = 180 then ((edge - 1 - ik) + is) + ((edge - 1 - jk) + js) * gw
  else ((edge - 1 - jk) + is) + (ik + js) * gw

/-- Base offset the claims specify: `i = n mod width`, `j = n div width`
(row-major `pieceIndex = i + j * width`). -/
def rowMajorBase (width edge n : ℕ) : ℕ × ℕ :=
  ((n % width) * (edge - 1), (n / width) * (edge - 1))

/-- `a` is an interior seam column: a positive multiple of `edge - 1` strictly
left of the last grid column. -/
def seamCol (width edge a : ℕ) : Prop :=
  a % (edge - 1) = 0 ∧ 0 < a ∧ a < width * (edge - 1)

/-- `b` is an interior seam row. -/
def seamRow (height edge b : ℕ) : Prop :=
  b % (edge - 1) = 0 ∧ 0 < b ∧ b < height * (edge - 1)

instance (width edge a : ℕ) : Decidable (seamCol width edge a) := by
  unfold seamCol; infer_instance

instance (height edge b : ℕ) : Decidable (seamRow height edge b) := by
  unfold seamRow; infer_instance

/-- Piece column owning a non-seam grid column `a`. -/
def ownerCol (width edge a : ℕ) : ℕ :=
  if a = width * (edge - 1) then width - 1 else a / (edge - 1)

/-- Piece row owning a non-seam grid row `b`. -/
def ownerRow (height edge b : ℕ) : ℕ :=
  if b = height * (edge - 1) then height - 1 else b / (edge - 1)

/-- Piece value `i + j * width` owning the non-seam cell `(a, b)`. -/
def ownerVal (width height edge a b : ℕ) : ℤ :=
  ((ownerCol width edge a + ownerRow height edge b * width : ℕ) : ℤ)

/-! ### Index-list lemmas -/

theorem mem_forIdxAux {stp : ℕ} :
    ∀ {fuel start stop y : ℕ}, y ∈ forIdxAux stp fuel start stop →
      (∃ k, y = start + k * stp) ∧ y < stop := by
  intro fuel
  induction fuel with
  | zero => intro start stop y h; simp [forIdxAux] at h
  | succ n ih =>
    intro start stop y h
    rw [forIdxAux] at h
    by_cases hlt : start < stop
    · simp only [if_pos hlt, List.mem_cons] at h
      rcases h with rfl | h
      · exact ⟨⟨0, by omega⟩, hlt⟩
      · obtain ⟨⟨k, hk⟩, hy⟩ := ih h
        exact ⟨⟨k + 1, by rw [hk]; ring⟩, hy⟩
    · simp [if_neg hlt] at h

theorem forIdxAux_mem {stp : ℕ} (hstp : 1 ≤ stp) :
    ∀ (fuel start stop k : ℕ), start + k * stp < stop → stop ≤ fuel * stp + start →
      start + k * stp ∈ forIdxAux stp fuel start stop := by
  intro fuel
  induction fuel with
  | zero => intro start stop k h1 h2; omega
  | succ n ih =>
    intro start stop k h1 h2
    have hlt : start < stop := by nlinarith
    rw [forIdxAux, if_pos hlt]
    rcases k with _ | k
    · simp
    · have hsplit : start + (k + 1) * stp = (start + stp) + k * stp := by ring
      rw [hsplit]
      refine List.mem_cons_of_mem _ (ih (start + stp) stop k ?_ ?_)
      · omega
      · have hns : (n + 1) * stp = n * stp + stp := by ring
        omega

theorem mem_forIdx {start stop stp y : ℕ} (hstp : 1 ≤ stp)
    (h : y ∈ forIdx start stop stp) : (∃ k, y = start + k * stp) ∧ y < stop :=
  mem_forIdxAux h

theorem forIdx_mem {start stop stp : ℕ} (hstp : 1 ≤ stp) (k : ℕ)
    (h : start + k * stp < stop) : start + k * stp ∈ forIdx start stop stp := by
  refine forIdxAux_mem hstp stop start stop k h ?_
  nlinarith

theorem mem_forIdx_one {n y : ℕ} : y ∈ forIdx 0 n 1 ↔ y < n := by
  constructor
  · intro h
    exact (mem_forIdx (by omega) h).2
  · intro h
    have h2 : (0 : ℕ) + y * 1 < n := by omega
    have h3 := forIdx_mem (by omega) y h2
    simpa using h3

/-! ### Generic fold lemmas -/

theorem foldl_preserve {α ι : Type} (P : α → Prop) (f : α → ι → α) :
    ∀ (l : List ι), (∀ t ∈ l, ∀ s, P s → P (f s t)) → ∀ s, P s → P (l.foldl f s) := by
  intro l
  induction l with
  | nil => intro _ s hs; simpa
  | cons t ts ih =>
    intro hpres s hs
    simp only [List.foldl_cons]
    exact ih (fun u hu => hpres u (List.mem_cons_of_mem _ hu)) (f s t)
      (hpres t (List.mem_cons_self _ _) s hs)

theorem foldl_establish {α ι : Type} (P : α → Prop) (f : α → ι → α) :
    ∀ (l : List ι), (∀ t ∈ l, ∀ s, P s → P (f s t)) →
      ∀ t₀ ∈ l, (∀ s, P (f s t₀)) → ∀ s, P (l.foldl f s) := by
  intro l
  induction l with
  | nil => intro _ t₀ h; simp at h
  | cons t ts ih =>
    intro hpres t₀ ht₀ hest s
    simp only [List.foldl_cons]
    rcases List.mem_cons.mp ht₀ with rfl | hmem
    · exact foldl_preserve P f ts
        (fun u hu => hpres u (List.mem_cons_of_mem _ hu)) (f s t₀) (hest s)
    · exact ih (fun u hu => hpres u (List.mem_cons_of_mem _ hu)) t₀ hmem hest (f s t)

/-! ### Phase-run lemmas -/

theorem phaseRun_frame (r : ℕ → ℕ) (src : ℕ → ℕ → ℕ) :
    ∀ (cells : List ℕ) (s : (ℕ → ℤ) × ℕ) (y : ℕ), y ∉ cells →
      (phaseRun r src cells s).1 y = s.1 y := by
  intro cells s y hy
  refine foldl_preserve (fun u => u.1 y = s.1 y) (copyStep r src) cells ?_ s rfl
  intro x hx u hu
  have hxy : y ≠ x := fun h => hy (h ▸ hx)
  simpa [copyStep, upd, hxy] using hu

theorem phaseRun_cons (r : ℕ → ℕ) (src : ℕ → ℕ → ℕ) (x : ℕ) (cells : List ℕ)
    (s : (ℕ → ℤ) × ℕ) :
    phaseRun r src (x :: cells) s = phaseRun r src cells (copyStep r src s x) := rfl

theorem phaseRun_value (r : ℕ → ℕ) (src : ℕ → ℕ → ℕ) :
    ∀ (cells : List ℕ), (∀ v y, y ∈ cells → src v y ∉ cells) →
      ∀ (s : (ℕ → ℤ) × ℕ) (y : ℕ), y ∈ cells →
        ∃ v, (phaseRun r src cells s).1 y = s.1 (src v y) := by
  intro cells
  induction cells with
  | nil => intro _ s y hy; simp at hy
  | cons x rest ih =>
    intro hsrc s y hy
    rw [phaseRun_cons]
    by_cases hmem : y ∈ rest
    · have hsrc' : ∀ v z, z ∈ rest → src v z ∉ rest := by
        intro v z hz
        have hn := hsrc v z (List.mem_cons_of_mem _ hz)
        exact fun hc => hn (List.mem_cons_of_mem _ hc)
      obtain ⟨v, hv⟩ := ih hsrc' (copyStep r src s x) y hmem
      refine ⟨v, ?_⟩
      rw [hv]
      have hne : src v y ≠ x := by
        intro h
        exact (hsrc v y (List.mem_cons_of_mem _ hmem)) (h ▸ List.mem_cons_self _ _)
      simp [copyStep, upd, hne]
    · have hyx : y = x := by
        rcases List.mem_cons.mp hy with h | h
        · exact h
        · exact absurd h hmem
      subst hyx
      refine ⟨r s.2, ?_⟩
      rw [phaseRun_frame r src rest _ y hmem]
      simp [copyStep, upd]

/-! ### Linear cell index arithmetic -/

theorem cell_eq_iff {gw a b a2 b2 : ℕ} (ha : a < gw) (ha2 : a2 < gw) :
    a + b * gw = a2 + b2 * gw ↔ a = a2 ∧ b = b2 := by
  constructor
  · intro h
    have h1 : (a + b * gw) % gw = (a2 + b2 * gw) % gw := by rw [h]
    rw [Nat.add_mul_mod_self_right, Nat.add_mul_mod_self_right,
      Nat.mod_eq_of_lt ha, Nat.mod_eq_of_lt ha2] at h1
    subst h1
    have hb : b * gw = b2 * gw := by omega
    exact ⟨rfl, Nat.eq_of_mul_eq_mul_right (by omega) hb⟩
  · rintro ⟨rfl, rfl⟩; rfl

/-! ### Seam and owner arithmetic -/

theorem seamRow_iff_seamCol (height edge b : ℕ) :
    seamRow height edge b ↔ seamCol height edge b := Iff.rfl

theorem ownerRow_eq_ownerCol (height edge b : ℕ) :
    ownerRow height edge b = ownerCol height edge b := rfl

theorem ownerCol_of_piece {width edge i ik : ℕ} (he : 2 ≤ edge) (hi : i < width)
    (hik : ik < edge) (hlast : ik = edge - 1 → i = width - 1) :
    ownerCol width edge (ik + i * (edge - 1)) = i := by
  have hw : 1 ≤ width := by omega
  by_cases hik1 : ik = edge - 1
  · have hi1 := hlast hik1
    subst hik1; subst hi1
    have hkey : (edge - 1) + (width - 1) * (edge - 1) = width * (edge - 1) := by
      cases width with
      | zero => omega
      | succ w => simp [Nat.succ_sub_one]; ring
    rw [hkey]
    simp [ownerCol]
  · have hikl : ik < edge - 1 := by omega
    have hne : ik + i * (edge - 1) ≠ width * (edge - 1) := by
      have h1 : (i + 1) * (edge - 1) = i * (edge - 1) + (edge - 1) := by ring
      have h2 : (i + 1) * (edge - 1) ≤ width * (edge - 1) :=
        Nat.mul_le_mul_right _ (by omega)
      omega
    unfold ownerCol
    rw [if_neg hne, Nat.add_mul_div_right _ _ (by omega : 0 < edge - 1),
      Nat.div_eq_of_lt hikl]
    omega

theorem written_col_not_seam {width edge i ik : ℕ} (he : 2 ≤ edge) (hi : i < width)
    (hik : ik < edge) (hfirst : ik = 0 → i = 0) (hlast : ik = edge - 1 → i = width - 1) :
    ¬ seamCol width edge (ik + i * (edge - 1)) := by
  rintro ⟨hmod, hpos, hlt⟩
  by_cases hik1 : ik = edge - 1
  · have hi1 := hlast hik1
    have hw : 1 ≤ width := by omega
    subst hik1; subst hi1
    have hkey : (edge - 1) + (width - 1) * (edge - 1) = width * (edge - 1) := by
      cases width with
      | zero => omega
      | succ w => simp [Nat.succ_sub_one]; ring
    omega
  · have hikl : ik < edge - 1 := by omega
    rw [Nat.add_mul_mod_self_right, Nat.mod_eq_of_lt hikl] at hmod
    have hi0 := hfirst hmod
    subst hi0
    omega

theorem nonseam_decomp {width edge a : ℕ} (he : 2 ≤ edge) (hw : 1 ≤ width)
    (ha : a < gwOf width edge) (hns : ¬ seamCol width edge a) :
    ∃ ik, ik < edge ∧ a = ik + ownerCol width edge a * (edge - 1) ∧
      (ik = 0 → ownerCol width edge a = 0) ∧
      (ik = edge - 1 → ownerCol width edge a = width - 1) ∧
      ownerCol width edge a < width := by
  by_cases hlast : a = width * (edge - 1)
  · have hoc : ownerCol width edge a = width - 1 := by unfold ownerCol; rw [if_pos hlast]
    rw [hoc]
    refine ⟨edge - 1, by omega, ?_, by omega, fun _ => rfl, by omega⟩
    rw [hlast]
    cases width with
    | zero => omega
    | succ w => simp [Nat.succ_sub_one]; ring
  · have halt : a < width * (edge - 1) := by
      unfold gwOf at ha; omega
    have hoc : ownerCol width edge a = a / (edge - 1) := by
      unfold ownerCol; rw [if_neg hlast]
    rw [hoc]
    have hmodlt : a % (edge - 1) < edge - 1 := Nat.mod_lt a (by omega)
    refine ⟨a % (edge - 1), by omega, ?_, ?_, by omega, ?_⟩
    · rw [Nat.mod_add_div']
    · intro hmod0
      by_cases ha0 : a = 0
      · subst ha0; simp
      · exact absurd ⟨hmod0, by omega, halt⟩ hns
    · rw [Nat.div_lt_iff_lt_mul (by omega : 0 < edge - 1)]
      exact halt

theorem ownerCol_lt {width edge a : ℕ} (he : 2 ≤ edge) (hw : 1 ≤ width)
    (ha : a < gwOf width edge) : ownerCol width edge a < width := by
  by_cases hlast : a = width * (edge - 1)
  · unfold ownerCol; rw [if_pos hlast]; omega
  · unfold ownerCol; rw [if_neg hlast]
    rw [Nat.div_lt_iff_lt_mul (by omega : 0 < edge - 1)]
    unfold gwOf at ha; omega

theorem ownerVal_nonneg (width height edge a b : ℕ) :
    0 ≤ ownerVal width height edge a b := by
  unfold ownerVal
  positivity

theorem ownerVal_lt {width height edge a b : ℕ} (he : 2 ≤ edge) (hw : 1 ≤ width)
    (hh : 1 ≤ height) (ha : a < gwOf width edge) (hb : b < ghOf height edge) :
    ownerVal width height edge a b < ((width * height : ℕ) : ℤ) := by
  have hoc := ownerCol_lt he hw ha
  have hor : ownerRow height edge b < height := by
    rw [ownerRow_eq_ownerCol]
    exact ownerCol_lt he hh hb
  unfold ownerVal
  have key : ownerCol width edge a + ownerRow height edge b * width < width * height := by
    have h1 : ownerRow height edge b * width ≤ (height - 1) * width :=
      Nat.mul_le_mul_right _ (by omega)
    have h2 : (height - 1) * width + width = height * width := by
      cases height with
      | zero => omega
      | succ hh2 => simp [Nat.succ_sub_one]; ring
    have h3 : width * height = height * width := Nat.mul_comm _ _
    omega
  exact_mod_cast key

/-! ### initgrid characterization -/

theorem mem_initTuples {width height edge : ℕ} {j i jk ik : ℕ} :
    (j, i, jk, ik) ∈ initTuples width height edge ↔
      j < height ∧ i < width ∧ jk < edge ∧ ik < edge := by
  unfold initTuples
  simp only [List.mem_flatten, List.mem_map, mem_forIdx_one]
  constructor
  · rintro ⟨l1, ⟨j2, hj2, rfl⟩, h⟩
    simp only [List.mem_flatten, List.mem_map, mem_forIdx_one] at h
    obtain ⟨l2, ⟨i2, hi2, rfl⟩, h⟩ := h
    simp only [List.mem_flatten, List.mem_map, mem_forIdx_one] at h
    obtain ⟨l3, ⟨jk2, hjk2, rfl⟩, h⟩ := h
    simp only [List.mem_map, mem_forIdx_one] at h
    obtain ⟨ik2, hik2, heq⟩ := h
    obtain ⟨rfl, rfl, rfl, rfl⟩ : j2 = j ∧ i2 = i ∧ jk2 = jk ∧ ik2 = ik := by
      simpa [Prod.ext_iff] using heq
    exact ⟨hj2, hi2, hjk2, hik2⟩
  · rintro ⟨hj, hi, hjk, hik⟩
    refine ⟨_, ⟨j, hj, rfl⟩, ?_⟩
    simp only [List.mem_flatten, List.mem_map, mem_forIdx_one]
    refine ⟨_, ⟨i, hi, rfl⟩, ?_⟩
    simp only [List.mem_flatten, List.mem_map, mem_forIdx_one]
    refine ⟨_, ⟨jk, hjk, rfl⟩, ?_⟩
    simp only [List.mem_map, mem_forIdx_one]
    exact ⟨ik, hik, rfl⟩

theorem written_col_lt {width edge i ik : ℕ} (he : 2 ≤ edge) (hi : i < width)
    (hik : ik < edge) : ik + i * (edge - 1) < gwOf width edge := by
  have h1 : i * (edge - 1) ≤ (width - 1) * (edge - 1) :=
    Nat.mul_le_mul_right _ (by omega)
  have h2 : (edge - 1) + (width - 1) * (edge - 1) = width * (edge - 1) := by
    cases width with
    | zero => omega
    | succ w => simp [Nat.succ_sub_one]; ring
  unfold gwOf
  omega

theorem initgrid_nonseam {width height edge : ℕ} (he : 2 ≤ edge) (hw : 1 ≤ width)
    (hh : 1 ≤ height) (g : ℕ → ℤ) {a b : ℕ}
    (ha : a < gwOf width edge) (hb : b < ghOf height edge)
    (hsa : ¬ seamCol width edge a) (hsb : ¬ seamRow height edge b) :
    initgrid width height edge g (a + b * gwOf width edge) =
      ownerVal width height edge a b := by
  have hb2 : b < gwOf height edge := hb
  have hsb2 : ¬ seamCol height edge b := hsb
  obtain ⟨ak, hak, haeq, hak0, hak1, hoca⟩ := nonseam_decomp he hw ha hsa
  obtain ⟨bk, hbk, hbeq, hbk0, hbk1, hocb⟩ := nonseam_decomp he hh hb2 hsb2
  unfold initgrid
  refine foldl_establish
    (fun g2 => g2 (a + b * gwOf width edge) = ownerVal width height edge a b)
    (initStep width height edge (gwOf width edge)) _ ?_
    (ownerCol height edge b, ownerCol width edge a, bk, ak) ?_ ?_ g
  · -- every tuple's write preserves the property
    rintro ⟨j, i, jk, ik⟩ ht s hs
    rw [mem_initTuples] at ht
    obtain ⟨hj, hi, hjk, hik⟩ := ht
    unfold initStep
    dsimp only
    by_cases c1 : ik = 0 ∧ i ≠ 0
    · rw [if_pos c1]; exact hs
    rw [if_neg c1]
    by_cases c2 : jk = 0 ∧ j ≠ 0
    · rw [if_pos c2]; exact hs
    rw [if_neg c2]
    by_cases c3 : ik = edge - 1 ∧ i ≠ width - 1
    · rw [if_pos c3]; exact hs
    rw [if_neg c3]
    by_cases c4 : jk = edge - 1 ∧ j ≠ height - 1
    · rw [if_pos c4]; exact hs
    rw [if_neg c4]
    unfold upd
    by_cases hcell : a + b * gwOf width edge =
        (ik + i * (edge - 1)) + ((j * (edge - 1) + jk) * gwOf width edge)
    · rw [if_pos hcell]
      have hcol : ik + i * (edge - 1) < gwOf width edge := written_col_lt he hi hik
      obtain ⟨hac, hbc⟩ := (cell_eq_iff ha hcol).mp hcell
      have hg1 : ik = 0 → i = 0 := fun h => by
        by_contra hne; exact c1 ⟨h, hne⟩
      have hg3 : ik = edge - 1 → i = width - 1 := fun h => by
        by_contra hne; exact c3 ⟨h, hne⟩
      have hg2 : jk = 0 → j = 0 := fun h => by
        by_contra hne; exact c2 ⟨h, hne⟩
      have hg4 : jk = edge - 1 → j = height - 1 := fun h => by
        by_contra hne; exact c4 ⟨h, hne⟩
      have hia : ownerCol width edge a = i := by
        rw [hac]; exact ownerCol_of_piece he hi hik hg3
      have hjb : ownerCol height edge b = j := by
        rw [hbc, Nat.add_comm (j * (edge - 1)) jk]
        exact ownerCol_of_piece he hj hjk hg4
      unfold ownerVal
      rw [ownerRow_eq_ownerCol, hia, hjb]
    · rw [if_neg hcell]; exact hs
  · -- the owner tuple is iterated over
    rw [mem_initTuples]
    exact ⟨hocb, hoca, hbk, hak⟩
  · -- the owner tuple establishes the property
    intro s
    unfold initStep
    dsimp only
    rw [if_neg (by rintro ⟨h0, hne⟩; exact hne (hak0 h0)),
      if_neg (by rintro ⟨h0, hne⟩; exact hne (hbk0 h0)),
      if_neg (by rintro ⟨h0, hne⟩; exact hne (hak1 h0)),
      if_neg (by rintro ⟨h0, hne⟩; exact hne (hbk1 h0))]
    unfold upd
    have hcell : a + b * gwOf width edge =
        (ak + ownerCol width edge a * (edge - 1)) +
          ((ownerCol height edge b * (edge - 1) + bk) * gwOf width edge) := by
      rw [← haeq]
      have hbrow : ownerCol height edge b * (edge - 1) + bk = b := by omega
      rw [hbrow]
    rw [if_pos hcell]
    unfold ownerVal
    rw [ownerRow_eq_ownerCol]

theorem initgrid_seam {width height edge : ℕ} (he : 2 ≤ edge) {a b : ℕ}
    (ha : a < gwOf width edge)
    (hseam : seamCol width edge a ∨ seamRow height edge b) :
    initgrid width height edge allSentinel (a + b * gwOf width edge) = -1 := by
  unfold initgrid
  refine foldl_preserve (fun g2 => g2 (a + b * gwOf width edge) = -1)
    (initStep width height edge (gwOf width edge)) _ ?_ allSentinel rfl
  rintro ⟨j, i, jk, ik⟩ ht s hs
  rw [mem_initTuples] at ht
  obtain ⟨hj, hi, hjk, hik⟩ := ht
  unfold initStep
  dsimp only
  by_cases c1 : ik = 0 ∧ i ≠ 0
  · rw [if_pos c1]; exact hs
  rw [if_neg c1]
  by_cases c2 : jk = 0 ∧ j ≠ 0
  · rw [if_pos c2]; exact hs
  rw [if_neg c2]
  by_cases c3 : ik = edge - 1 ∧ i ≠ width - 1
  · rw [if_pos c3]; exact hs
  rw [if_neg c3]
  by_cases c4 : jk = edge - 1 ∧ j ≠ height - 1
  · rw [if_pos c4]; exact hs
  rw [if_neg c4]
  unfold upd
  by_cases hcell : a + b * gwOf width edge =
      (ik + i * (edge - 1)) + ((j * (edge - 1) + jk) * gwOf width edge)
  · exfalso
    have hcol : ik + i * (edge - 1) < gwOf width edge := written_col_lt he hi hik
    obtain ⟨hac, hbc⟩ := (cell_eq_iff ha hcol).mp hcell
    have hg1 : ik = 0 → i = 0 := fun h => by
      by_contra hne; exact c1 ⟨h, hne⟩
    have hg3 : ik = edge - 1 → i = width - 1 := fun h => by
      by_contra hne; exact c3 ⟨h, hne⟩
    have hg2 : jk = 0 → j = 0 := fun h => by
      by_contra hne; exact c2 ⟨h, hne⟩
    have hg4 : jk = edge - 1 → j = height - 1 := fun h => by
      by_contra hne; exact c4 ⟨h, hne⟩
    rcases hseam with hsa | hsb
    · rw [hac] at hsa
      exact written_col_not_seam he hi hik hg1 hg3 hsa
    · rw [seamRow_iff_seamCol, hbc, Nat.add_comm (j * (edge - 1)) jk] at hsb
      exact written_col_not_seam he hj hjk hg2 hg4 hsb
  · rw [if_neg hcell]; exact hs

/-! ### Seam neighbours are not seams (edge ≥ 3) -/

theorem seam_sub_one_not {width edge a : ℕ} (he : 3 ≤ edge)
    (hs : seamCol width edge a) : ¬ seamCol width edge (a - 1) := by
  obtain ⟨hmod, hpos, hlt⟩ := hs
  obtain ⟨q, hq⟩ := Nat.dvd_of_mod_eq_zero hmod
  rintro ⟨hmod2, hpos2, hlt2⟩
  have hq1 : 1 ≤ q := by
    rcases Nat.eq_zero_or_pos q with rfl | h
    · omega
    · exact h
  have hx : (edge - 1) * q = (q - 1) * (edge - 1) + (edge - 1) := by
    obtain ⟨q2, rfl⟩ : ∃ q2, q = q2 + 1 := ⟨q - 1, by omega⟩
    simp
    ring
  have ha1 : a - 1 = (edge - 2) + (q - 1) * (edge - 1) := by omega
  rw [ha1, Nat.add_mul_mod_self_right, Nat.mod_eq_of_lt (by omega)] at hmod2
  omega

theorem seam_add_one_not {width edge a : ℕ} (he : 3 ≤ edge)
    (hs : seamCol width edge a) : ¬ seamCol width edge (a + 1) := by
  obtain ⟨hmod, hpos, hlt⟩ := hs
  obtain ⟨q, hq⟩ := Nat.dvd_of_mod_eq_zero hmod
  rintro ⟨hmod2, _, _⟩
  have ha1 : a + 1 = 1 + (edge - 1) * q := by omega
  rw [ha1, Nat.add_mul_mod_self_left, Nat.mod_eq_of_lt (by omega)] at hmod2
  omega

/-! ### Membership in the dogrid phase cell lists -/

theorem ghOf_eq_gwOf (height edge : ℕ) : ghOf height edge = gwOf height edge := rfl

theorem mem_forIdx_seam {width edge y : ℕ} (he : 2 ≤ edge) :
    y ∈ forIdx (edge - 1) (gwOf width edge - 1) (edge - 1) ↔ seamCol width edge y := by
  constructor
  · intro h
    obtain ⟨⟨k, hk⟩, hlt⟩ := mem_forIdx (by omega) h
    subst hk
    refine ⟨?_, by omega, ?_⟩
    · rw [Nat.add_mul_mod_self_right, Nat.mod_self]
    · unfold gwOf at hlt; omega
  · rintro ⟨hmod, hpos, hlt⟩
    obtain ⟨q, hq⟩ := Nat.dvd_of_mod_eq_zero hmod
    have hq1 : 1 ≤ q := by
      rcases Nat.eq_zero_or_pos q with rfl | h
      · omega
      · exact h
    have hx : (edge - 1) * q = (q - 1) * (edge - 1) + (edge - 1) := by
      obtain ⟨q2, rfl⟩ : ∃ q2, q = q2 + 1 := ⟨q - 1, by omega⟩
      simp
      ring
    have hy : y = (edge - 1) + (q - 1) * (edge - 1) := by omega
    rw [hy]
    refine forIdx_mem (by omega) (q - 1) ?_
    unfold gwOf
    omega

theorem mem_phase1Cells {width height edge x : ℕ} (he : 2 ≤ edge) :
    x ∈ phase1Cells width height edge ↔
      ∃ a b, x = a + b * gwOf width edge ∧ seamCol width edge a ∧
        b < ghOf height edge := by
  unfold phase1Cells
  simp only [List.mem_flatten, List.mem_map]
  constructor
  · rintro ⟨l, ⟨ik, hik, rfl⟩, hmem⟩
    simp only [List.mem_map, mem_forIdx_one] at hmem
    obtain ⟨jk, hjk, rfl⟩ := hmem
    exact ⟨ik, jk, rfl, (mem_forIdx_seam he).mp hik, hjk⟩
  · rintro ⟨a, b, rfl, hsa, hb⟩
    refine ⟨_, ⟨a, (mem_forIdx_seam he).mpr hsa, rfl⟩, ?_⟩
    simp only [List.mem_map, mem_forIdx_one]
    exact ⟨b, hb, rfl⟩

theorem mem_phase2Cells {width height edge x : ℕ} (he : 2 ≤ edge) :
    x ∈ phase2Cells width height edge ↔
      ∃ a b, x = a + b * gwOf width edge ∧ a < gwOf width edge ∧
        seamRow height edge b := by
  unfold phase2Cells
  rw [ghOf_eq_gwOf]
  simp only [List.mem_flatten, List.mem_map]
  constructor
  · rintro ⟨l, ⟨jk, hjk, rfl⟩, hmem⟩
    simp only [List.mem_map, mem_forIdx_one] at hmem
    obtain ⟨ik, hik, rfl⟩ := hmem
    exact ⟨ik, jk, rfl, hik, (seamRow_iff_seamCol _ _ _).mpr ((mem_forIdx_seam he).mp hjk)⟩
  · rintro ⟨a, b, rfl, ha, hsb⟩
    refine ⟨_, ⟨b, (mem_forIdx_seam he).mpr ((seamRow_iff_seamCol _ _ _).mp hsb), rfl⟩, ?_⟩
    simp only [List.mem_map, mem_forIdx_one]
    exact ⟨a, ha, rfl⟩

theorem mem_phase3Cells {width height edge x : ℕ} (he : 2 ≤ edge) :
    x ∈ phase3Cells width height edge ↔
      ∃ a b, x = a + b * gwOf width edge ∧ seamCol width edge a ∧
        seamRow height edge b := by
  unfold phase3Cells
  rw [ghOf_eq_gwOf]
  simp only [List.mem_flatten, List.mem_map]
  constructor
  · rintro ⟨l, ⟨jk, hjk, rfl⟩, hmem⟩
    simp only [List.mem_map] at hmem
    obtain ⟨ik, hik, rfl⟩ := hmem
    exact ⟨ik, jk, rfl, (mem_forIdx_seam he).mp hik,
      (seamRow_iff_seamCol _ _ _).mpr ((mem_forIdx_seam he).mp hjk)⟩
  · rintro ⟨a, b, rfl, hsa, hsb⟩
    refine ⟨_, ⟨b, (mem_forIdx_seam he).mpr ((seamRow_iff_seamCol _ _ _).mp hsb), rfl⟩, ?_⟩
    simp only [List.mem_map]
    exact ⟨a, (mem_forIdx_seam he).mpr hsa, rfl⟩

theorem seamCol_lt_gw {width edge a : ℕ} (hs : seamCol width edge a) :
    a < gwOf width edge := by
  have := hs.2.2
  unfold gwOf
  omega

/-! ### Value and frame lemmas for the three dogrid phases -/

theorem phase1_src_not_mem {width height edge : ℕ} (he : 3 ≤ edge) :
    ∀ v y, y ∈ phase1Cells width height edge →
      src1 v y ∉ phase1Cells width height edge := by
  have he2 : 2 ≤ edge := by omega
  intro v y hy
  rw [mem_phase1Cells he2] at hy
  obtain ⟨a, b, rfl, hsa, hb⟩ := hy
  have hapos : 1 ≤ a := hsa.2.1
  intro hmem
  rw [mem_phase1Cells he2] at hmem
  obtain ⟨a3, b3, heq, hs3, hb3⟩ := hmem
  have ha3 : a3 < gwOf width edge := seamCol_lt_gw hs3
  unfold src1 at heq
  by_cases hv : v % 2 = 0
  · rw [if_pos hv] at heq
    have hy1 : a + b * gwOf width edge - 1 = (a - 1) + b * gwOf width edge := by omega
    rw [hy1] at heq
    have hlt : a - 1 < gwOf width edge := by
      have := seamCol_lt_gw hsa; omega
    obtain ⟨hc, _⟩ := (cell_eq_iff hlt ha3).mp heq
    exact seam_sub_one_not he hsa (hc ▸ hs3)
  · rw [if_neg hv] at heq
    have hy1 : a + b * gwOf width edge + 1 = (a + 1) + b * gwOf width edge := by omega
    rw [hy1] at heq
    have hlt : a + 1 < gwOf width edge := by
      have := hsa.2.2; unfold gwOf; omega
    obtain ⟨hc, _⟩ := (cell_eq_iff hlt ha3).mp heq
    exact seam_add_one_not he hsa (hc ▸ hs3)

theorem phase1_value {width height edge : ℕ} (he : 3 ≤ edge) (r : ℕ → ℕ)
    (s : (ℕ → ℤ) × ℕ) {a b : ℕ} (hsa : seamCol width edge a)
    (hb : b < ghOf height edge) :
    (phaseRun r src1 (phase1Cells width height edge) s).1 (a + b * gwOf width edge) =
        s.1 ((a - 1) + b * gwOf width edge) ∨
      (phaseRun r src1 (phase1Cells width height edge) s).1 (a + b * gwOf width edge) =
        s.1 ((a + 1) + b * gwOf width edge) := by
  have he2 : 2 ≤ edge := by omega
  have hy : a + b * gwOf width edge ∈ phase1Cells width height edge :=
    (mem_phase1Cells he2).mpr ⟨a, b, rfl, hsa, hb⟩
  obtain ⟨v, hv⟩ := phaseRun_value r src1 _ (phase1_src_not_mem he) s _ hy
  have hapos : 1 ≤ a := hsa.2.1
  rw [hv]
  unfold src1
  by_cases h2 : v % 2 = 0
  · rw [if_pos h2,
      show a + b * gwOf width edge - 1 = (a - 1) + b * gwOf width edge from by omega]
    exact Or.inl rfl
  · rw [if_neg h2,
      show a + b * gwOf width edge + 1 = (a + 1) + b * gwOf width edge from by omega]
    exact Or.inr rfl

theorem phase1_frame {width height edge : ℕ} (he2 : 2 ≤ edge) (r : ℕ → ℕ)
    (s : (ℕ → ℤ) × ℕ) {a b : ℕ} (ha : a < gwOf width edge)
    (hsa : ¬ seamCol width edge a) :
    (phaseRun r src1 (phase1Cells width height edge) s).1 (a + b * gwOf width edge) =
      s.1 (a + b * gwOf width edge) := by
  apply phaseRun_frame
  intro hmem
  rw [mem_phase1Cells he2] at hmem
  obtain ⟨a2, b2, heq, hs2, hb2⟩ := hmem
  have ha2 : a2 < gwOf width edge := seamCol_lt_gw hs2
  obtain ⟨hc, _⟩ := (cell_eq_iff ha ha2).mp heq
  exact hsa (hc ▸ hs2)

theorem seamRow_lt_gh {height edge b : ℕ} (hs : seamRow height edge b) :
    b < ghOf height edge := by
  have := hs.2.2
  unfold ghOf
  omega

theorem phase2_src_not_mem {width height edge : ℕ} (he : 3 ≤ edge) :
    ∀ v y, y ∈ phase2Cells width height edge →
      src2 (gwOf width edge) v y ∉ phase2Cells width height edge := by
  have he2 : 2 ≤ edge := by omega
  intro v y hy
  rw [mem_phase2Cells he2] at hy
  obtain ⟨a, b, rfl, ha, hsb⟩ := hy
  have hbpos : 1 ≤ b := hsb.2.1
  intro hmem
  rw [mem_phase2Cells he2] at hmem
  obtain ⟨a3, b3, heq, ha3, hs3⟩ := hmem
  unfold src2 at heq
  by_cases hv : v % 2 = 0
  · rw [if_pos hv] at heq
    have hy1 : a + b * gwOf width edge - gwOf width edge =
        a + (b - 1) * gwOf width edge := by
      have hx : b * gwOf width edge = (b - 1) * gwOf width edge + gwOf width edge := by
        obtain ⟨b2, rfl⟩ : ∃ b2, b = b2 + 1 := ⟨b - 1, by omega⟩
        simp
        ring
      omega
    rw [hy1] at heq
    obtain ⟨_, hc⟩ := (cell_eq_iff ha ha3).mp heq
    rw [seamRow_iff_seamCol] at hs3 hsb
    exact seam_sub_one_not he hsb (hc ▸ hs3)
  · rw [if_neg hv] at heq
    have hy1 : a + b * gwOf width edge + gwOf width edge =
        a + (b + 1) * gwOf width edge := by ring
    rw [hy1] at heq
    obtain ⟨_, hc⟩ := (cell_eq_iff ha ha3).mp heq
    rw [seamRow_iff_seamCol] at hs3 hsb
    exact seam_add_one_not he hsb (hc ▸ hs3)

theorem phase2_value {width height edge : ℕ} (he : 3 ≤ edge) (r : ℕ → ℕ)
    (s : (ℕ → ℤ) × ℕ) {a b : ℕ} (ha : a < gwOf width edge)
    (hsb : seamRow height edge b) :
    (phaseRun r (src2 (gwOf width edge)) (phase2Cells width height edge) s).1
        (a + b * gwOf width edge) = s.1 (a + (b - 1) * gwOf width edge) ∨
      (phaseRun r (src2 (gwOf width edge)) (phase2Cells width height edge) s).1
        (a + b * gwOf width edge) = s.1 (a + (b + 1) * gwOf width edge) := by
  have he2 : 2 ≤ edge := by omega
  have hy : a + b * gwOf width edge ∈ phase2Cells width height edge :=
    (mem_phase2Cells he2).mpr ⟨a, b, rfl, ha, hsb⟩
  obtain ⟨v, hv⟩ := phaseRun_value r _ _ (phase2_src_not_mem he) s _ hy
  have hbpos : 1 ≤ b := hsb.2.1
  rw [hv]
  unfold src2
  have hx : b * gwOf width edge = (b - 1) * gwOf width edge + gwOf width edge := by
    obtain ⟨b2, rfl⟩ : ∃ b2, b = b2 + 1 := ⟨b - 1, by omega⟩
    simp
    ring
  by_cases h2 : v % 2 = 0
  · rw [if_pos h2,
      show a + b * gwOf width edge - gwOf width edge =
        a + (b - 1) * gwOf width edge from by omega]
    exact Or.inl rfl
  · rw [if_neg h2,
      show a + b * gwOf width edge + gwOf width edge =
        a + (b + 1) * gwOf width edge from by ring]
    exact Or.inr rfl

theorem phase2_frame {width height edge : ℕ} (he2 : 2 ≤ edge) (r : ℕ → ℕ)
    (s : (ℕ → ℤ) × ℕ) {a b : ℕ} (ha : a < gwOf width edge)
    (hsb : ¬ seamRow height edge b) :
    (phaseRun r (src2 (gwOf width edge)) (phase2Cells width height edge) s).1
      (a + b * gwOf width edge) = s.1 (a + b * gwOf width edge) := by
  apply phaseRun_frame
  intro hmem
  rw [mem_phase2Cells he2] at hmem
  obtain ⟨a2, b2, heq, ha2, hs2⟩ := hmem
  obtain ⟨_, hc⟩ := (cell_eq_iff ha ha2).mp heq
  exact hsb (hc ▸ hs2)

theorem phase3_src_not_mem {width height edge : ℕ} (he : 3 ≤ edge) :
    ∀ v y, y ∈ phase3Cells width height edge →
      src3 (gwOf width edge) v y ∉ phase3Cells width height edge := by
  have he2 : 2 ≤ edge := by omega
  intro v y hy
  rw [mem_phase3Cells he2] at hy
  obtain ⟨a, b, rfl, hsa, hsb⟩ := hy
  have hapos : 1 ≤ a := hsa.2.1
  have hbpos : 1 ≤ b := hsb.2.1
  have ha : a < gwOf width edge := seamCol_lt_gw hsa
  intro hmem
  rw [mem_phase3Cells he2] at hmem
  obtain ⟨a3, b3, heq, hs3a, hs3b⟩ := hmem
  have ha3 : a3 < gwOf width edge := seamCol_lt_gw hs3a
  unfold src3 at heq
  by_cases h0 : v % 4 = 0
  · rw [if_pos h0] at heq
    have hy1 : a + b * gwOf width edge - 1 = (a - 1) + b * gwOf width edge := by omega
    rw [hy1] at heq
    obtain ⟨hc, _⟩ := (cell_eq_iff (by omega) ha3).mp heq
    exact seam_sub_one_not he hsa (hc ▸ hs3a)
  rw [if_neg h0] at heq
  by_cases h1 : v % 4 = 1
  · rw [if_pos h1] at heq
    have hy1 : a + b * gwOf width edge + 1 = (a + 1) + b * gwOf width edge := by omega
    rw [hy1] at heq
    have hlt : a + 1 < gwOf width edge := by
      have := hsa.2.2; unfold gwOf; omega
    obtain ⟨hc, _⟩ := (cell_eq_iff hlt ha3).mp heq
    exact seam_add_one_not he hsa (hc ▸ hs3a)
  rw [if_neg h1] at heq
  by_cases h2 : v % 4 = 2
  · rw [if_pos h2] at heq
    have hy1 : a + b * gwOf width edge + gwOf width edge =
        a + (b + 1) * gwOf width edge := by ring
    rw [hy1] at heq
    obtain ⟨_, hc⟩ := (cell_eq_iff ha ha3).mp heq
    rw [seamRow_iff_seamCol] at hs3b hsb
    exact seam_add_one_not he hsb (hc ▸ hs3b)
  · rw [if_neg h2] at heq
    have hy1 : a + b * gwOf width edge - gwOf width edge =
        a + (b - 1) * gwOf width edge := by
      have hx : b * gwOf width edge = (b - 1) * gwOf width edge + gwOf width edge := by
        obtain ⟨b2, rfl⟩ : ∃ b2, b = b2 + 1 := ⟨b - 1, by omega⟩
        simp
        ring
      omega
    rw [hy1] at heq
    obtain ⟨_, hc⟩ := (cell_eq_iff ha ha3).mp heq
    rw [seamRow_iff_seamCol] at hs3b hsb
    exact seam_sub_one_not he hsb (hc ▸ hs3b)

theorem phase3_value {width height edge : ℕ} (he : 3 ≤ edge) (r : ℕ → ℕ)
    (s : (ℕ → ℤ) × ℕ) {a b : ℕ} (hsa : seamCol width edge a)
    (hsb : seamRow height edge b) :
    (phaseRun r (src3 (gwOf width edge)) (phase3Cells width height edge) s).1
        (a + b * gwOf width edge) = s.1 ((a - 1) + b * gwOf width edge) ∨
      (phaseRun r (src3 (gwOf width edge)) (phase3Cells width height edge) s).1
        (a + b * gwOf width edge) = s.1 ((a + 1) + b * gwOf width edge) ∨
      (phaseRun r (src3 (gwOf width edge)) (phase3Cells width height edge) s).1
        (a + b * gwOf width edge) = s.1 (a + (b + 1) * gwOf width edge) ∨
      (phaseRun r (src3 (gwOf width edge)) (phase3Cells width height edge) s).1
        (a + b * gwOf width edge) = s.1 (a + (b - 1) * gwOf width edge) := by
  have he2 : 2 ≤ edge := by omega
  have hy : a + b * gwOf width edge ∈ phase3Cells width height edge :=
    (mem_phase3Cells he2).mpr ⟨a, b, rfl, hsa, hsb⟩
  obtain ⟨v, hv⟩ := phaseRun_value r _ _ (phase3_src_not_mem he) s _ hy
  have hapos : 1 ≤ a := hsa.2.1
  have hbpos : 1 ≤ b := hsb.2.1
  rw [hv]
  unfold src3
  have hx : b * gwOf width edge = (b - 1) * gwOf width edge + gwOf width edge := by
    obtain ⟨b2, rfl⟩ : ∃ b2, b = b2 + 1 := ⟨b - 1, by omega⟩
    simp
    ring
  by_cases h0 : v % 4 = 0
  · rw [if_pos h0,
      show a + b * gwOf width edge - 1 = (a - 1) + b * gwOf width edge from by omega]
    exact Or.inl rfl
  rw [if_neg h0]
  by_cases h1 : v % 4 = 1
  · rw [if_pos h1,
      show a + b * gwOf width edge + 1 = (a + 1) + b * gwOf width edge from by omega]
    exact Or.inr (Or.inl rfl)
  rw [if_neg h1]
  by_cases h2 : v % 4 = 2
  · rw [if_pos h2,
      show a + b * gwOf width edge + gwOf width edge =
        a + (b + 1) * gwOf width edge from by ring]
    exact Or.inr (Or.inr (Or.inl rfl))
  · rw [if_neg h2,
      show a + b * gwOf width edge - gwOf width edge =
        a + (b - 1) * gwOf width edge from by omega]
    exact Or.inr (Or.inr (Or.inr rfl))

theorem phase3_frame {width height edge : ℕ} (he2 : 2 ≤ edge) (r : ℕ → ℕ)
    (s : (ℕ → ℤ) × ℕ) {a b : ℕ} (ha : a < gwOf width edge)
    (hns : ¬ (seamCol width edge a ∧ seamRow height edge b)) :
    (phaseRun r (src3 (gwOf width edge)) (phase3Cells width height edge) s).1
      (a + b * gwOf width edge) = s.1 (a + b * gwOf width edge) := by
  apply phaseRun_frame
  intro hmem
  rw [mem_phase3Cells he2] at hmem
  obtain ⟨a2, b2, heq, hs2a, hs2b⟩ := hmem
  have ha2 : a2 < gwOf width edge := seamCol_lt_gw hs2a
  obtain ⟨hca, hcb⟩ := (cell_eq_iff ha ha2).mp heq
  exact hns ⟨hca ▸ hs2a, hcb ▸ hs2b⟩

/-! ### dogrid resolves every cell to some piece value (edge ≥ 3) -/

theorem dogrid_resolved {width height edge : ℕ} (he : 3 ≤ edge) (hw : 1 ≤ width)
    (hh : 1 ≤ height) (r : ℕ → ℕ) {a b : ℕ} (ha : a < gwOf width edge)
    (hb : b < ghOf height edge) :
    ∃ a2 b2, a2 < gwOf width edge ∧ b2 < ghOf height edge ∧
      dogrid width height edge r (initgrid width height edge allSentinel)
        (a + b * gwOf width edge) = ownerVal width height edge a2 b2 := by
  have he2 : 2 ≤ edge := by omega
  unfold dogrid
  by_cases hsa : seamCol width edge a <;> by_cases hsb : seamRow height edge b
  · -- intersection cell: phase 3 copies a neighbour resolved by phase 1 or 2
    have hams : ¬ seamCol width edge (a - 1) := seam_sub_one_not he hsa
    have haps : ¬ seamCol width edge (a + 1) := seam_add_one_not he hsa
    have hbsc : seamCol height edge b := (seamRow_iff_seamCol _ _ _).mp hsb
    have hbms : ¬ seamRow height edge (b - 1) := fun hr =>
      seam_sub_one_not he hbsc ((seamRow_iff_seamCol _ _ _).mp hr)
    have hbps : ¬ seamRow height edge (b + 1) := fun hr =>
      seam_add_one_not he hbsc ((seamRow_iff_seamCol _ _ _).mp hr)
    have ham : a - 1 < gwOf width edge := by omega
    have hap : a + 1 < gwOf width edge := by
      have := hsa.2.2; unfold gwOf; omega
    have hbm : b - 1 < ghOf height edge := by omega
    have hbp : b + 1 < ghOf height edge := by
      have := hsb.2.2; unfold ghOf; omega
    rcases phase3_value he r _ hsa hsb with h3 | h3 | h3 | h3
    · rcases phase2_value he r _ ham hsb with h2 | h2
      · refine ⟨a - 1, b - 1, ham, hbm, ?_⟩
        rw [h3, h2, phase1_frame he2 r _ ham hams]
        dsimp only
        exact initgrid_nonseam he2 hw hh allSentinel ham hbm hams hbms
      · refine ⟨a - 1, b + 1, ham, hbp, ?_⟩
        rw [h3, h2, phase1_frame he2 r _ ham hams]
        dsimp only
        exact initgrid_nonseam he2 hw hh allSentinel ham hbp hams hbps
    · rcases phase2_value he r _ hap hsb with h2 | h2
      · refine ⟨a + 1, b - 1, hap, hbm, ?_⟩
        rw [h3, h2, phase1_frame he2 r _ hap haps]
        dsimp only
        exact initgrid_nonseam he2 hw hh allSentinel hap hbm haps hbms
      · refine ⟨a + 1, b + 1, hap, hbp, ?_⟩
        rw [h3, h2, phase1_frame he2 r _ hap haps]
        dsimp only
        exact initgrid_nonseam he2 hw hh allSentinel hap hbp haps hbps
    · rcases phase1_value he r _ hsa hbp with h1 | h1
      · refine ⟨a - 1, b + 1, ham, hbp, ?_⟩
        rw [h3, phase2_frame he2 r _ ha hbps, h1]
        dsimp only
        exact initgrid_nonseam he2 hw hh allSentinel ham hbp hams hbps
      · refine ⟨a + 1, b + 1, hap, hbp, ?_⟩
        rw [h3, phase2_frame he2 r _ ha hbps, h1]
        dsimp only
        exact initgrid_nonseam he2 hw hh allSentinel hap hbp haps hbps
    · rcases phase1_value he r _ hsa hbm with h1 | h1
      · refine ⟨a - 1, b - 1, ham, hbm, ?_⟩
        rw [h3, phase2_frame he2 r _ ha hbms, h1]
        dsimp only
        exact initgrid_nonseam he2 hw hh allSentinel ham hbm hams hbms
      · refine ⟨a + 1, b - 1, hap, hbm, ?_⟩
        rw [h3, phase2_frame he2 r _ ha hbms, h1]
        dsimp only
        exact initgrid_nonseam he2 hw hh allSentinel hap hbm haps hbms
  · -- vertical seam cell away from seam rows: written by phase 1
    have hams : ¬ seamCol width edge (a - 1) := seam_sub_one_not he hsa
    have haps : ¬ seamCol width edge (a + 1) := seam_add_one_not he hsa
    have ham : a - 1 < gwOf width edge := by omega
    have hap : a + 1 < gwOf width edge := by
      have := hsa.2.2; unfold gwOf; omega
    have hns3 : ¬ (seamCol width edge a ∧ seamRow height edge b) := fun hc => hsb hc.2
    rcases phase1_value he r _ hsa hb with h1 | h1
    · refine ⟨a - 1, b, ham, hb, ?_⟩
      rw [phase3_frame he2 r _ ha hns3, phase2_frame he2 r _ ha hsb, h1]
      dsimp only
      exact initgrid_nonseam he2 hw hh allSentinel ham hb hams hsb
    · refine ⟨a + 1, b, hap, hb, ?_⟩
      rw [phase3_frame he2 r _ ha hns3, phase2_frame he2 r _ ha hsb, h1]
      dsimp only
      exact initgrid_nonseam he2 hw hh allSentinel hap hb haps hsb
  · -- horizontal seam cell away from seam columns: written by phase 2
    have hbsc : seamCol height edge b := (seamRow_iff_seamCol _ _ _).mp hsb
    have hbms : ¬ seamRow height edge (b - 1) := fun hr =>
      seam_sub_one_not he hbsc ((seamRow_iff_seamCol _ _ _).mp hr)
    have hbps : ¬ seamRow height edge (b + 1) := fun hr =>
      seam_add_one_not he hbsc ((seamRow_iff_seamCol _ _ _).mp hr)
    have hbm : b - 1 < ghOf height edge := by omega
    have hbp : b + 1 < ghOf height edge := by
      have := hsb.2.2; unfold ghOf; omega
    have hns3 : ¬ (seamCol width edge a ∧ seamRow height edge b) := fun hc => hsa hc.1
    rcases phase2_value he r _ ha hsb with h2 | h2
    · refine ⟨a, b - 1, ha, hbm, ?_⟩
      rw [phase3_frame he2 r _ ha hns3, h2, phase1_frame he2 r _ ha hsa]
      dsimp only
      exact initgrid_nonseam he2 hw hh allSentinel ha hbm hsa hbms
    · refine ⟨a, b + 1, ha, hbp, ?_⟩
      rw [phase3_frame he2 r _ ha hns3, h2, phase1_frame he2 r _ ha hsa]
      dsimp only
      exact initgrid_nonseam he2 hw hh allSentinel ha hbp hsa hbps
  · -- interior or outer-border cell: value fixed by initgrid
    have hns3 : ¬ (seamCol width edge a ∧ seamRow height edge b) := fun hc => hsa hc.1
    refine ⟨a, b, ha, hb, ?_⟩
    rw [phase3_frame he2 r _ ha hns3, phase2_frame he2 r _ ha hsb,
      phase1_frame he2 r _ ha hsa]
    dsimp only
    exact initgrid_nonseam he2 hw hh allSentinel ha hb hsa hsb

/-- Claim C1, counterexample: for `width=3, height=2, edge=2` and the rand
stream constantly 1, the in-range grid cell `(a, b) = (1, 0)` still holds the
sentinel -1 after `initgrid` and `dogrid`, so completeness fails for some
outcome of the random draws at edge 2. -/
theorem C1_counterexample_edge2 :
    2 ≤ 3 ∧ 2 ≤ 2 ∧ 2 ≤ 2 ∧ (2 : ℕ) ≤ 8 ∧ 1 < gwOf 3 2 ∧ 0 < ghOf 2 2 ∧
      genGrid 3 2 2 (fun _ => 1) (1 + 0 * gwOf 3 2) = -1 := by decide

/-- Claim C1 (amended: edge ≥ 3 instead of edge ≥ 2): after InterlockGenerator
(`initgrid` then `dogrid`) runs on a freshly allocated sentinel-filled grid,
for all `width, height ≥ 2`, `3 ≤ edge ≤ 8` and every outcome of the random
draws, every grid cell holds a piece index in `[0, width*height)`. -/
theorem C1_amended_completeness {width height edge : ℕ} (hw : 2 ≤ width)
    (hh : 2 ≤ height) (he : 3 ≤ edge) (he8 : edge ≤ 8) (r : ℕ → ℕ) {a b : ℕ}
    (ha : a < gwOf width edge) (hb : b < ghOf height edge) :
    0 ≤ genGrid width height edge r (a + b * gwOf width edge) ∧
      genGrid width height edge r (a + b * gwOf width edge) <
        ((width * height : ℕ) : ℤ) := by
  obtain ⟨a2, b2, ha2, hb2, heq⟩ := dogrid_resolved he (by omega) (by omega) r ha hb
  unfold genGrid
  rw [heq]
  exact ⟨ownerVal_nonneg _ _ _ _ _,
    ownerVal_lt (by omega) (by omega) (by omega) ha2 hb2⟩

/-- Witness for the amended claim C1 at the concrete input
`width = height = 2`, `edge = 3`, zero rand stream, cell `(0, 0)`. -/
theorem C1_amended_completeness_witness :
    0 ≤ genGrid 2 2 3 (fun _ => 0) (0 + 0 * gwOf 2 3) ∧
      genGrid 2 2 3 (fun _ => 0) (0 + 0 * gwOf 2 3) < ((2 * 2 : ℕ) : ℤ) :=
  C1_amended_completeness (by decide) (by decide) (by decide) (by decide)
    (fun _ => 0) (by decide) (by decide)

/-- Claim C10: dogrid writes only seam and intersection cells, so every grid
cell that `initgrid` resolved (piece interiors and the puzzle's outer border)
holds the same value after `dogrid` as before, for every width, height ≥ 2,
2 ≤ edge ≤ 8, and every outcome of the random draws. -/
theorem C10_dogrid_frame {width height edge : ℕ} (hw : 2 ≤ width)
    (hh : 2 ≤ height) (he : 2 ≤ edge) (he8 : edge ≤ 8) (r : ℕ → ℕ) {a b : ℕ}
    (ha : a < gwOf width edge) (hb : b < ghOf height edge)
    (hres : initgrid width height edge allSentinel (a + b * gwOf width edge) ≠ -1) :
    dogrid width height edge r (initgrid width height edge allSentinel)
        (a + b * gwOf width edge) =
      initgrid width height edge allSentinel (a + b * gwOf width edge) := by
  have hsa : ¬ seamCol width edge a := fun hs =>
    hres (initgrid_seam he ha (Or.inl hs))
  have hsb : ¬ seamRow height edge b := fun hs =>
    hres (initgrid_seam he ha (Or.inr hs))
  unfold dogrid
  rw [phase3_frame he r _ ha (fun hc => hsa hc.1), phase2_frame he r _ ha hsb,
    phase1_frame he r _ ha hsa]

/-- Witness for claim C10 at `width = height = edge = 2`, zero rand stream,
cell `(0, 0)` (owned by piece 0 after initgrid). -/
theorem C10_dogrid_frame_witness :
    dogrid 2 2 2 (fun _ => 0) (initgrid 2 2 2 allSentinel) (0 + 0 * gwOf 2 2) =
      initgrid 2 2 2 allSentinel (0 + 0 * gwOf 2 2) :=
  C10_dogrid_frame (by decide) (by decide) (by decide) (by decide) (fun _ => 0)
    (by decide) (by decide) (by decide)

/-! ### The grids reached after dogrid phases 1 and 2 -/

/-- The `(grid, rand counter)` state after dogrid's phase 1. -/
def phase1State (width height edge : ℕ) (r : ℕ → ℕ) : (ℕ → ℤ) × ℕ :=
  phaseRun r src1 (phase1Cells width height edge)
    (initgrid width height edge allSentinel, 0)

/-- The `(grid, rand counter)` state after dogrid's phases 1 and 2. -/
def phase2State (width height edge : ℕ) (r : ℕ → ℕ) : (ℕ → ℤ) × ℕ :=
  phaseRun r (src2 (gwOf width edge)) (phase2Cells width height edge)
    (phase1State width height edge r)

theorem phase1State_nonneg {width height edge : ℕ} (he : 3 ≤ edge)
    (hw : 1 ≤ width) (hh : 1 ≤ height) (r : ℕ → ℕ) {a b : ℕ}
    (ha : a < gwOf width edge) (hb : b < ghOf height edge)
    (hsb : ¬ seamRow height edge b) :
    0 ≤ (phase1State width height edge r).1 (a + b * gwOf width edge) := by
  have he2 : 2 ≤ edge := by omega
  unfold phase1State
  by_cases hsa : seamCol width edge a
  · have hams : ¬ seamCol width edge (a - 1) := seam_sub_one_not he hsa
    have haps : ¬ seamCol width edge (a + 1) := seam_add_one_not he hsa
    have ham : a - 1 < gwOf width edge := by omega
    have hap : a + 1 < gwOf width edge := by
      have := hsa.2.2; unfold gwOf; omega
    rcases phase1_value he r _ hsa hb with h1 | h1
    · rw [h1]
      dsimp only
      rw [initgrid_nonseam he2 hw hh allSentinel ham hb hams hsb]
      exact ownerVal_nonneg _ _ _ _ _
    · rw [h1]
      dsimp only
      rw [initgrid_nonseam he2 hw hh allSentinel hap hb haps hsb]
      exact ownerVal_nonneg _ _ _ _ _
  · rw [phase1_frame he2 r _ ha hsa]
    dsimp only
    rw [initgrid_nonseam he2 hw hh allSentinel ha hb hsa hsb]
    exact ownerVal_nonneg _ _ _ _ _

theorem phase2State_nonneg {width height edge : ℕ} (he : 3 ≤ edge)
    (hw : 1 ≤ width) (hh : 1 ≤ height) (r : ℕ → ℕ) {a b : ℕ}
    (ha : a < gwOf width edge) (hb : b < ghOf height edge) :
    0 ≤ (phase2State width height edge r).1 (a + b * gwOf width edge) := by
  have he2 : 2 ≤ edge := by omega
  unfold phase2State
  by_cases hsb : seamRow height edge b
  · have hbsc : seamCol height edge b := (seamRow_iff_seamCol _ _ _).mp hsb
    have hbms : ¬ seamRow height edge (b - 1) := fun hr =>
      seam_sub_one_not he hbsc ((seamRow_iff_seamCol _ _ _).mp hr)
    have hbps : ¬ seamRow height edge (b + 1) := fun hr =>
      seam_add_one_not he hbsc ((seamRow_iff_seamCol _ _ _).mp hr)
    have hbm : b - 1 < ghOf height edge := by omega
    have hbp : b + 1 < ghOf height edge := by
      have := hsb.2.2; unfold ghOf; omega
    rcases phase2_value he r _ ha hsb with h2 | h2
    · rw [h2]
      exact phase1State_nonneg he hw hh r ha hbm hbms
    · rw [h2]
      exact phase1State_nonneg he hw hh r ha hbp hbps
  · rw [phase2_frame he2 r _ ha hsb]
    exact phase1State_nonneg he hw hh r ha hb hsb

/-- Claim C5, counterexample: at `width = height = 2`, `edge = 3` (parameters
the claim accepts) with the zero rand stream, dogrid's phase 1 processes the
intersection cell `(2, 2)` (index 12), reads its left neighbour `(1, 2)`
(index 11) which initgrid left unresolved, and copies the sentinel -1 into the
cell it is resolving. -/
theorem C5_counterexample_phase1_copies_sentinel :
    (2 + 2 * gwOf 2 3) ∈ phase1Cells 2 2 3 ∧
      initgrid 2 2 3 allSentinel (1 + 2 * gwOf 2 3) = -1 ∧
      (phase1State 2 2 3 (fun _ => 0)).1 (2 + 2 * gwOf 2 3) = -1 := by decide

/-- Claim C5 (amended): for edge ≥ 3, at the moment each phase-2 or phase-3
cell is processed the cells it may read are already resolved (≥ 0), and so are
the cells phase 1 may read at non-seam rows; only phase 1's reads at seam rows
(the four-way intersection cells) can still be the sentinel, and those cells
are re-resolved by phases 2 and 3. -/
theorem C5_amended_phase_reads {width height edge : ℕ} (hw : 2 ≤ width)
    (hh : 2 ≤ height) (he : 3 ≤ edge) (he8 : edge ≤ 8) (r : ℕ → ℕ) :
    (∀ l₁ x l₂ a b, phase1Cells width height edge = l₁ ++ x :: l₂ →
      x = a + b * gwOf width edge → a < gwOf width edge →
      ¬ seamRow height edge b →
      0 ≤ (phaseRun r src1 l₁
            (initgrid width height edge allSentinel, 0)).1 (x - 1) ∧
      0 ≤ (phaseRun r src1 l₁
            (initgrid width height edge allSentinel, 0)).1 (x + 1)) ∧
    (∀ l₁ x l₂ a b, phase2Cells width height edge = l₁ ++ x :: l₂ →
      x = a + b * gwOf width edge → a < gwOf width edge →
      0 ≤ (phaseRun r (src2 (gwOf width edge)) l₁
            (phase1State width height edge r)).1 (x - gwOf width edge) ∧
      0 ≤ (phaseRun r (src2 (gwOf width edge)) l₁
            (phase1State width height edge r)).1 (x + gwOf width edge)) ∧
    (∀ l₁ x l₂ a b, phase3Cells width height edge = l₁ ++ x :: l₂ →
      x = a + b * gwOf width edge → a < gwOf width edge →
      0 ≤ (phaseRun r (src3 (gwOf width edge)) l₁
            (phase2State width height edge r)).1 (x - 1) ∧
      0 ≤ (phaseRun r (src3 (gwOf width edge)) l₁
            (phase2State width height edge r)).1 (x + 1) ∧
      0 ≤ (phaseRun r (src3 (gwOf width edge)) l₁
            (phase2State width height edge r)).1 (x + gwOf width edge) ∧
      0 ≤ (phaseRun r (src3 (gwOf width edge)) l₁
            (phase2State width height edge r)).1 (x - gwOf width edge)) := by
  have he2 : 2 ≤ edge := by omega
  have hw1 : 1 ≤ width := by omega
  have hh1 : 1 ≤ height := by omega
  refine ⟨?_, ?_, ?_⟩
  · -- phase 1, non-seam rows
    intro l₁ x l₂ a b hsplit hx ha hsb
    have hxmem : x ∈ phase1Cells width height edge := by
      rw [hsplit]; exact List.mem_append_right _ (List.mem_cons_self _ _)
    obtain ⟨a2, b2, hx2, hs2, hb2⟩ := (mem_phase1Cells he2).mp hxmem
    obtain ⟨rfl, rfl⟩ := (cell_eq_iff ha (seamCol_lt_gw hs2)).mp (hx ▸ hx2)
    have hsub : ∀ z ∈ l₁, z ∈ phase1Cells width height edge := by
      intro z hz; rw [hsplit]; exact List.mem_append_left _ hz
    have hapos : 1 ≤ a := hs2.2.1
    have hams : ¬ seamCol width edge (a - 1) := seam_sub_one_not he hs2
    have haps : ¬ seamCol width edge (a + 1) := seam_add_one_not he hs2
    have ham : a - 1 < gwOf width edge := by omega
    have hap : a + 1 < gwOf width edge := by
      have := hs2.2.2; unfold gwOf; omega
    have hm1 : x - 1 ∉ l₁ := fun hc => by
      have hn := phase1_src_not_mem he 0 x hxmem
      simp only [src1] at hn
      exact hn (by simpa using hsub _ hc)
    have hp1 : x + 1 ∉ l₁ := fun hc => by
      have hn := phase1_src_not_mem he 1 x hxmem
      simp only [src1] at hn
      exact hn (by simpa using hsub _ hc)
    constructor
    · rw [phaseRun_frame r src1 l₁ _ _ hm1]
      dsimp only
      rw [hx, show a + b * gwOf width edge - 1 = (a - 1) + b * gwOf width edge
        from by omega]
      rw [initgrid_nonseam he2 hw1 hh1 allSentinel ham hb2 hams hsb]
      exact ownerVal_nonneg _ _ _ _ _
    · rw [phaseRun_frame r src1 l₁ _ _ hp1]
      dsimp only
      rw [hx, show a + b * gwOf width edge + 1 = (a + 1) + b * gwOf width edge
        from by omega]
      rw [initgrid_nonseam he2 hw1 hh1 allSentinel hap hb2 haps hsb]
      exact ownerVal_nonneg _ _ _ _ _
  · -- phase 2
    intro l₁ x l₂ a b hsplit hx ha
    have hxmem : x ∈ phase2Cells width height edge := by
      rw [hsplit]; exact List.mem_append_right _ (List.mem_cons_self _ _)
    obtain ⟨a2, b2, hx2, ha2, hs2⟩ := (mem_phase2Cells he2).mp hxmem
    obtain ⟨rfl, rfl⟩ := (cell_eq_iff ha ha2).mp (hx ▸ hx2)
    have hsub : ∀ z ∈ l₁, z ∈ phase2Cells width height edge := by
      intro z hz; rw [hsplit]; exact List.mem_append_left _ hz
    have hbpos : 1 ≤ b := hs2.2.1
    have hbsc : seamCol height edge b := (seamRow_iff_seamCol _ _ _).mp hs2
    have hbms : ¬ seamRow height edge (b - 1) := fun hr =>
      seam_sub_one_not he hbsc ((seamRow_iff_seamCol _ _ _).mp hr)
    have hbps : ¬ seamRow height edge (b + 1) := fun hr =>
      seam_add_one_not he hbsc ((seamRow_iff_seamCol _ _ _).mp hr)
    have hbm : b - 1 < ghOf height edge := by
      have := hs2.2.2; unfold ghOf; omega
    have hbp : b + 1 < ghOf height edge := by
      have := hs2.2.2; unfold ghOf; omega
    have hm1 : x - gwOf width edge ∉ l₁ := fun hc => by
      have hn := phase2_src_not_mem he 0 x hxmem
      simp only [src2] at hn
      exact hn (by simpa using hsub _ hc)
    have hp1 : x + gwOf width edge ∉ l₁ := fun hc => by
      have hn := phase2_src_not_mem he 1 x hxmem
      simp only [src2] at hn
      exact hn (by simpa using hsub _ hc)
    have hidxm : x - gwOf width edge = a + (b - 1) * gwOf width edge := by
      have hxx : b * gwOf width edge =
          (b - 1) * gwOf width edge + gwOf width edge := by
        obtain ⟨b2, rfl⟩ : ∃ b2, b = b2 + 1 := ⟨b - 1, by omega⟩
        simp
        ring
      omega
    have hidxp : x + gwOf width edge = a + (b + 1) * gwOf width edge := by
      rw [hx]; ring
    constructor
    · rw [phaseRun_frame r _ l₁ _ _ hm1, hidxm]
      exact phase1State_nonneg he hw1 hh1 r ha hbm hbms
    · rw [phaseRun_frame r _ l₁ _ _ hp1, hidxp]
      exact phase1State_nonneg he hw1 hh1 r ha hbp hbps
  · -- phase 3
    intro l₁ x l₂ a b hsplit hx ha
    have hxmem : x ∈ phase3Cells width height edge := by
      rw [hsplit]; exact List.mem_append_right _ (List.mem_cons_self _ _)
    obtain ⟨a2, b2, hx2, hsa2, hsb2⟩ := (mem_phase3Cells he2).mp hxmem
    obtain ⟨rfl, rfl⟩ := (cell_eq_iff ha (seamCol_lt_gw hsa2)).mp (hx ▸ hx2)
    have hsub : ∀ z ∈ l₁, z ∈ phase3Cells width height edge := by
      intro z hz; rw [hsplit]; exact List.mem_append_left _ hz
    have hapos : 1 ≤ a := hsa2.2.1
    have hbpos : 1 ≤ b := hsb2.2.1
    have hbp : b + 1 < ghOf height edge := by
      have := hsb2.2.2; unfold ghOf; omega
    have hbm : b - 1 < ghOf height edge := by
      have := hsb2.2.2; unfold ghOf; omega
    have hap : a + 1 < gwOf width edge := by
      have := hsa2.2.2; unfold gwOf; omega
    have ham : a - 1 < gwOf width edge := by omega
    have hnm1 : x - 1 ∉ l₁ := fun hc => by
      have hn := phase3_src_not_mem he 0 x hxmem
      simp only [src3] at hn
      exact hn (by simpa using hsub _ hc)
    have hnp1 : x + 1 ∉ l₁ := fun hc => by
      have hn := phase3_src_not_mem he 1 x hxmem
      simp only [src3] at hn
      exact hn (by simpa using hsub _ hc)
    have hnpg : x + gwOf width edge ∉ l₁ := fun hc => by
      have hn := phase3_src_not_mem he 2 x hxmem
      simp only [src3] at hn
      exact hn (by simpa using hsub _ hc)
    have hnmg : x - gwOf width edge ∉ l₁ := fun hc => by
      have hn := phase3_src_not_mem he 3 x hxmem
      simp only [src3] at hn
      exact hn (by simpa using hsub _ hc)
    have hidxm1 : x - 1 = (a - 1) + b * gwOf width edge := by omega
    have hidxp1 : x + 1 = (a + 1) + b * gwOf width edge := by omega
    have hidxpg : x + gwOf width edge = a + (b + 1) * gwOf width edge := by
      rw [hx]; ring
    have hidxmg : x - gwOf width edge = a + (b - 1) * gwOf width edge := by
      have hxx : b * gwOf width edge =
          (b - 1) * gwOf width edge + gwOf width edge := by
        obtain ⟨b2, rfl⟩ : ∃ b2, b = b2 + 1 := ⟨b - 1, by omega⟩
        simp
        ring
      omega
    refine ⟨?_, ?_, ?_, ?_⟩
    · rw [phaseRun_frame r _ l₁ _ _ hnm1, hidxm1]
      exact phase2State_nonneg he hw1 hh1 r ham (seamRow_lt_gh hsb2)
    · rw [phaseRun_frame r _ l₁ _ _ hnp1, hidxp1]
      exact phase2State_nonneg he hw1 hh1 r hap (seamRow_lt_gh hsb2)
    · rw [phaseRun_frame r _ l₁ _ _ hnpg, hidxpg]
      exact phase2State_nonneg he hw1 hh1 r ha hbp
    · rw [phaseRun_frame r _ l₁ _ _ hnmg, hidxmg]
      exact phase2State_nonneg he hw1 hh1 r ha hbm

/-- Witness for the amended claim C5: the phase-2 part at
`width = height = 2`, `edge = 3`, zero rand stream, first phase-2 cell. -/
theorem C5_amended_phase_reads_witness :
    0 ≤ (phaseRun (fun _ => 0) (src2 (gwOf 2 3)) []
          (phase1State 2 2 3 (fun _ => 0))).1 (10 - gwOf 2 3) ∧
      0 ≤ (phaseRun (fun _ => 0) (src2 (gwOf 2 3)) []
          (phase1State 2 2 3 (fun _ => 0))).1 (10 + gwOf 2 3) :=
  (C5_amended_phase_reads (by decide) (by decide) (by decide) (by decide)
    (fun _ => 0)).2.1 [] 10 [11, 12, 13, 14] 0 2 (by decide) (by decide)
    (by decide)

/-- Claim C3: the serializer's rotation mapping (`outputpbm`, rotation code
`randrot`) and the validator's rotation mapping (`getgrid`, angle
`90 * randrot` degrees) are the same function, and both equal the table the
specification states, for every base offset, every local coordinate in
`[0, edge)²` and every rotation code `randrot < 4`. -/
theorem C3_rotation_tables_agree (rr edge gw is js jk ik : ℕ) (hr : rr < 4)
    (hjk : jk < edge) (hik : ik < edge) :
    makeXmap edge gw is js rr jk ik = valXmap edge gw is js (90 * rr) jk ik ∧
      valXmap edge gw is js (90 * rr) jk ik =
        specRotTable edge gw is js (90 * rr) jk ik := by
  interval_cases rr <;>
    simp only [makeXmap, valXmap, specRotTable] <;>
    norm_num

/-- Witness for claim C3 at rotation code 1 (90 degrees), `edge = 3`,
`gw = 5`, base `(0, 0)`, local coordinate `(jk, ik) = (1, 2)`. -/
theorem C3_rotation_tables_agree_witness :
    makeXmap 3 5 0 0 1 1 2 = valXmap 3 5 0 0 (90 * 1) 1 2 ∧
      valXmap 3 5 0 0 (90 * 1) 1 2 = specRotTable 3 5 0 0 (90 * 1) 1 2 :=
  C3_rotation_tables_agree 1 3 5 0 0 1 2 (by decide) (by decide) (by decide)

/-- Claim C4, code bug: both `outputpbm` and `getgrid` compute the piece row
as `n / height` (not `n / width` as row-major numbering requires).  At
`width = 3`, `height = 2`, `edge = 2`, `n = 2` the code locates the piece at
base `(2, 1)` while the row-major position of piece 2 is `(2, 0)`. -/
theorem C4_base_offset_divides_by_height :
    makeBase 3 2 2 2 = valBase 3 2 2 2 ∧ makeBase 3 2 2 2 = (2, 1) ∧
      rowMajorBase 3 2 2 = (2, 0) ∧
      makeBase 3 2 2 2 ≠ rowMajorBase 3 2 2 := by decide

/-- Claim C9, code bug: with `width = 3`, `height = 2`, `edge = 2` and a
well-formed ledger of `width * height = 6` entries, the validator's decode
transform for entry 5 at angle 0 and local coordinate `(1, 1)` computes the
linear address 15, which is outside the allocated grid of `gw * gh = 12`
cells (the `piece / height` base offset row exceeds the grid when
width > height). -/
theorem C9_decoder_address_out_of_bounds :
    valPieceXmap 3 2 2 5 0 1 1 = 15 ∧ gwOf 3 2 * ghOf 2 2 = 12 ∧
      ¬ (valPieceXmap 3 2 2 5 0 1 1 < gwOf 3 2 * ghOf 2 2) := by decide

/-- Claim C2, code bug evaluated at a failing input: at `width = 2`,
`height = 3`, `edge = 3` with the zero rand stream, the completed grid owns
cell 16 = `(1, 3)` to piece 2, but serializing piece 2 (angle 0) through
`outputpbm`'s window (placed with the `n / height` base offset) and
deserializing the bitmap onto an empty grid with the validator leaves cell 16
unclaimed (-1): the round trip does not reclaim the cells piece 2 owned. -/
theorem C2_roundtrip_failure_eval :
    genGrid 2 3 3 (fun _ => 0) (1 + 3 * gwOf 2 3) = 2 ∧
      Except.map (fun d => d (1 + 3 * gwOf 2 3))
        (placePiece 2 3 3 allSentinel 2 0
          (makePieceBitmap (genGrid 2 3 3 (fun _ => 0)) 2 3 3 2 0)) =
        Except.ok (-1) := by
  constructor
  · decide
  · rfl

/-! ### The shuffle is a bijection -/

/-- The bijection-on-`[0, npiece)` property preserved by every swap. -/
def shuffleInv (npiece : ℕ) (f : ℕ → ℕ) : Prop :=
  (∀ k, k < npiece → f k < npiece) ∧
  (∀ k1, k1 < npiece → ∀ k2, k2 < npiece → f k1 = f k2 → k1 = k2) ∧
  (∀ v, v < npiece → ∃ k, k < npiece ∧ f k = v)

theorem swapStep_preserve {npiece : ℕ} (r : ℕ → ℕ) (hnp : 0 < npiece) :
    ∀ n ∈ forIdx 0 npiece 1, ∀ s : (ℕ → ℕ) × ℕ,
      shuffleInv npiece s.1 → shuffleInv npiece (swapStep npiece r s n).1 := by
  intro n hn s hs
  obtain ⟨hrange, hinj, hsurj⟩ := hs
  have hn2 : n < npiece := mem_forIdx_one.mp hn
  have hm2 : r s.2 % npiece < npiece := Nat.mod_lt _ hnp
  have hval : ∀ k, (swapStep npiece r s n).1 k =
      if k = n then s.1 (r s.2 % npiece)
      else if k = r s.2 % npiece then s.1 n
      else s.1 k := fun k => rfl
  refine ⟨?_, ?_, ?_⟩
  · intro k hk
    rw [hval]
    split_ifs
    · exact hrange _ hm2
    · exact hrange _ hn2
    · exact hrange _ hk
  · intro k1 hk1 k2 hk2 heq
    rw [hval, hval] at heq
    split_ifs at heq <;>
      first
        | omega
        | (have hxy := hinj _ (by omega) _ (by omega) heq; omega)
  · intro v hv
    obtain ⟨k, hk, hkv⟩ := hsurj v hv
    by_cases hkn : k = n
    · refine ⟨r s.2 % npiece, hm2, ?_⟩
      rw [hval]
      split_ifs with h1 h2
      · rw [h1, ← hkn]; exact hkv
      · rw [← hkn]; exact hkv
      · omega
    · by_cases hkm : k = r s.2 % npiece
      · refine ⟨n, hn2, ?_⟩
        rw [hval]
        rw [if_pos rfl, ← hkm]
        exact hkv
      · refine ⟨k, hk, ?_⟩
        rw [hval, if_neg hkn, if_neg hkm]
        exact hkv

/-- Claim C8: the file-identifier assignment produced by the generator's
repeated-swap shuffle is a bijection on `[0, npiece)` with
`npiece = width * height`: after the shuffle loop the piece array maps
`[0, npiece)` into itself injectively and onto, i.e. it contains every
integer in `[0, npiece)` exactly once, for every rand stream. -/
theorem C8_shuffle_is_bijection {width height : ℕ} (hw : 2 ≤ width)
    (hh : 2 ≤ height) (r : ℕ → ℕ) :
    (∀ k, k < width * height →
      shufflePieces (width * height) r k < width * height) ∧
    (∀ k1, k1 < width * height → ∀ k2, k2 < width * height →
      shufflePieces (width * height) r k1 = shufflePieces (width * height) r k2 →
        k1 = k2) ∧
    (∀ v, v < width * height → ∃ k, k < width * height ∧
      shufflePieces (width * height) r k = v) := by
  have hnp : 0 < width * height := by positivity
  unfold shufflePieces
  exact foldl_preserve (fun s => shuffleInv (width * height) s.1)
    (swapStep (width * height) r) (forIdx 0 (width * height) 1)
    (swapStep_preserve r hnp) ((fun n => n), 0)
    ⟨fun k hk => hk, fun _ _ _ _ h => h, fun v hv => ⟨v, hv, rfl⟩⟩

/-- Witness for claim C8 at `width = height = 2` with the zero rand stream:
the shuffled array value at index 0 is a valid file identifier. -/
theorem C8_shuffle_is_bijection_witness :
    shufflePieces (2 * 2) (fun _ => 0) 0 < 2 * 2 :=
  (C8_shuffle_is_bijection (by decide) (by decide) (fun _ => 0)).1 0 (by decide)

/-! ### Collision detection in the validator -/

theorem placeBits_error_shape (xm : ℕ → ℕ → ℕ) (bm : ℕ → ℕ → Bool) (p : ℕ) :
    ∀ (l : List (ℕ × ℕ)) (g : ℕ → ℤ) (c : ℤ × ℕ),
      placeBits xm bm p g l = .error c →
      c.2 = p ∧ c.1 ≠ -1 ∧
        ∃ l₁ jk ik l₂ g1, l = l₁ ++ (jk, ik) :: l₂ ∧
          placeBits xm bm p g l₁ = .ok g1 ∧ bm jk ik = true ∧
          g1 (xm jk ik) = c.1 := by
  intro l
  induction l with
  | nil =>
    intro g c h
    simp [placeBits] at h
  | cons hd tl ih =>
    obtain ⟨jk, ik⟩ := hd
    intro g c h
    rw [placeBits] at h
    by_cases hbm : bm jk ik
    · rw [if_pos hbm] at h
      by_cases hcol : g (xm jk ik) ≠ -1
      · rw [if_pos hcol] at h
        injection h with h2
        refine ⟨?_, ?_, [], jk, ik, tl, g, rfl, rfl, hbm, ?_⟩
        · rw [← h2]
        · rw [← h2]; exact hcol
        · rw [← h2]
      · rw [if_neg hcol] at h
        obtain ⟨hc2, hc1, l₁, jk2, ik2, l₂, g1, hsplit, hpre, hbm2, hval⟩ :=
          ih _ _ h
        refine ⟨hc2, hc1, (jk, ik) :: l₁, jk2, ik2, l₂, g1,
          by rw [hsplit, List.cons_append], ?_, hbm2, hval⟩
        rw [placeBits, if_pos hbm, if_neg hcol]
        exact hpre
    · rw [if_neg hbm] at h
      obtain ⟨hc2, hc1, l₁, jk2, ik2, l₂, g1, hsplit, hpre, hbm2, hval⟩ :=
        ih _ _ h
      refine ⟨hc2, hc1, (jk, ik) :: l₁, jk2, ik2, l₂, g1,
        by rw [hsplit, List.cons_append], ?_, hbm2, hval⟩
      rw [placeBits, if_neg hbm]
      exact hpre

theorem placeBits_ok_frame (xm : ℕ → ℕ → ℕ) (bm : ℕ → ℕ → Bool) (p : ℕ) :
    ∀ (l : List (ℕ × ℕ)) (g g2 : ℕ → ℤ), placeBits xm bm p g l = .ok g2 →
      ∀ y, (∀ jk ik, (jk, ik) ∈ l → bm jk ik = true → xm jk ik ≠ y) →
        g2 y = g y := by
  intro l
  induction l with
  | nil =>
    intro g g2 h y _
    simp only [placeBits] at h
    injection h with h2
    rw [← h2]
  | cons hd tl ih =>
    obtain ⟨jk, ik⟩ := hd
    intro g g2 h y hmiss
    rw [placeBits] at h
    by_cases hbm : bm jk ik
    · rw [if_pos hbm] at h
      by_cases hcol : g (xm jk ik) ≠ -1
      · rw [if_pos hcol] at h
        exact absurd h (by simp)
      · rw [if_neg hcol] at h
        have hy := ih _ _ h y
          (fun jk2 ik2 hmem hb => hmiss jk2 ik2 (List.mem_cons_of_mem _ hmem) hb)
        rw [hy]
        have hne : xm jk ik ≠ y := hmiss jk ik (List.mem_cons_self _ _) hbm
        have hne2 : ¬ y = xm jk ik := fun h2 => hne h2.symm
        simp [upd, hne2]
    · rw [if_neg hbm] at h
      exact ih _ _ h y
        (fun jk2 ik2 hmem hb => hmiss jk2 ik2 (List.mem_cons_of_mem _ hmem) hb)

/-- Claim C6: during ledger replay, a `1` bit mapping to an already-claimed
cell makes the validator report a collision naming both piece indices (the
prior claimant, a non-sentinel cell value, and the current entry counter) and
abort before consuming any further ledger entries, while `0` bits never claim
or alter a cell. -/
theorem C6_collision_detection (width height edge : ℕ) :
    (∀ (g : ℕ → ℤ) (piece angle : ℕ) (bm : ℕ → ℕ → Bool) (c : ℤ × ℕ)
        (rest : List ((ℕ → ℕ → Bool) × ℕ)),
      placePiece width height edge g piece angle bm = .error c →
      getgrid width height edge g piece ((bm, angle) :: rest) = .error c) ∧
    (∀ (g : ℕ → ℤ) (piece angle : ℕ) (bm : ℕ → ℕ → Bool) (c : ℤ × ℕ),
      placePiece width height edge g piece angle bm = .error c →
      c.2 = piece ∧ c.1 ≠ -1 ∧
        ∃ l₁ jk ik l₂ g1, bitCoords edge = l₁ ++ (jk, ik) :: l₂ ∧
          placeBits (valPieceXmap width height edge piece angle) bm piece g l₁ =
            .ok g1 ∧
          bm jk ik = true ∧
          g1 (valPieceXmap width height edge piece angle jk ik) = c.1) ∧
    (∀ (g g2 : ℕ → ℤ) (piece angle : ℕ) (bm : ℕ → ℕ → Bool),
      placePiece width height edge g piece angle bm = .ok g2 →
      ∀ y, (∀ jk ik, (jk, ik) ∈ bitCoords edge → bm jk ik = true →
          valPieceXmap width height edge piece angle jk ik ≠ y) →
        g2 y = g y) := by
  refine ⟨?_, ?_, ?_⟩
  · intro g piece angle bm c rest h
    rw [getgrid, h]
  · intro g piece angle bm c h
    exact placeBits_error_shape _ bm piece (bitCoords edge) g c h
  · intro g g2 piece angle bm h y hmiss
    exact placeBits_ok_frame _ bm piece (bitCoords edge) g g2 h y hmiss

/-- Witness for claim C6: at `width = height = edge = 2`, deserializing an
all-ones bitmap as entry 1 onto a grid entirely claimed by piece 0 aborts the
whole replay with the collision error naming pieces 0 and 1; and an all-zeros
bitmap leaves the empty grid unchanged at cell 5. -/
theorem C6_collision_detection_witness :
    getgrid 2 2 2 (fun _ => 0) 1 [(fun _ _ => true, 0)] = .error (0, 1) ∧
      allSentinel 5 = allSentinel 5 :=
  ⟨(C6_collision_detection 2 2 2).1 (fun _ => 0) 1 0 (fun _ _ => true) (0, 1)
      [] rfl,
    (C6_collision_detection 2 2 2).2.2 allSentinel allSentinel 0 0
      (fun _ _ => false) rfl 5 (fun _ _ _ hb => by simp at hb)⟩

/-! ### The validator's final verdict -/

theorem mem_testCoords {width height edge : ℕ} {j i : ℕ} :
    (j, i) ∈ testCoords width height edge ↔
      j < ghOf height edge ∧ i < gwOf width edge := by
  unfold testCoords
  simp only [List.mem_flatten, List.mem_map, mem_forIdx_one]
  constructor
  · rintro ⟨l, ⟨j2, hj2, rfl⟩, hmem⟩
    simp only [List.mem_map, mem_forIdx_one] at hmem
    obtain ⟨i2, hi2, heq⟩ := hmem
    obtain ⟨rfl, rfl⟩ : j2 = j ∧ i2 = i := by simpa [Prod.ext_iff] using heq
    exact ⟨hj2, hi2⟩
  · rintro ⟨hj, hi⟩
    refine ⟨_, ⟨j, hj, rfl⟩, ?_⟩
    simp only [List.mem_map, mem_forIdx_one]
    exact ⟨i, hi, rfl⟩

/-- Claim C7: when the ledger is exhausted and every entry deserialized
without error, `testgrid` returns `none` (prints `valid`, exit 0) iff no cell
of the scanned grid still holds the sentinel -1; otherwise it returns the
grid coordinates `(j, i)` of an unclaimed cell (prints `invalid`, exits 1). -/
theorem C7_verdict_valid_iff_complete (width height edge : ℕ)
    (g0 g : ℕ → ℤ) (entries : List ((ℕ → ℕ → Bool) × ℕ))
    (hok : getgrid width height edge g0 0 entries = .ok g) :
    (testgrid width height edge g = none ↔
      ∀ j, j < ghOf height edge → ∀ i, i < gwOf width edge →
        g (j * gwOf width edge + i) ≠ -1) ∧
    (∀ j i, testgrid width height edge g = some (j, i) →
      j < ghOf height edge ∧ i < gwOf width edge ∧
        g (j * gwOf width edge + i) = -1) := by
  constructor
  · unfold testgrid
    rw [List.find?_eq_none]
    constructor
    · intro hall j hj i hi
      have hcell := hall (j, i) (mem_testCoords.mpr ⟨hj, hi⟩)
      simpa using hcell
    · rintro hall ⟨j, i⟩ ht
      obtain ⟨hj, hi⟩ := mem_testCoords.mp ht
      simpa using hall j hj i hi
  · intro j i hfind
    unfold testgrid at hfind
    have hp := List.find?_some hfind
    have hmem := List.mem_of_find?_eq_some hfind
    obtain ⟨hj, hi⟩ := mem_testCoords.mp hmem
    exact ⟨hj, hi, by simpa using hp⟩

/-- Witness for claim C7: the empty ledger deserializes without error onto the
all-sentinel grid, and `testgrid` reports the unclaimed cell `(0, 0)`. -/
theorem C7_verdict_valid_iff_complete_witness :
    0 < ghOf 2 2 ∧ 0 < gwOf 2 2 ∧ allSentinel (0 * gwOf 2 2 + 0) = -1 :=
  (C7_verdict_valid_iff_complete 2 2 2 allSentinel allSentinel [] rfl).2 0 0
    (by decide)

end Jigsaw
